import Mathlib

/-!
# Verification of the hihoj map-painting / conquest program

Shallow embedding of the pixel-level subsystems of the repository:

* `diplomacy.ts` (src/unnamed/part_004): the pairwise at-peace/at-war store;
* `countryNaming.ts` (src/unnamed/part_001, with src/unnamed/part_000 an
  earlier revision): least-squares line fitting and label-baseline search;
* `conquest.ts` (src/src/conquest.ts): path-walking territorial conquest;
* the editor main module (src/unnamed/part_006): `floodFill`, `runJFA`,
  `loadMap`;
* `shaders.ts` (src/src/shaders.ts): the jump-flood pass `jfaFrag`;
* `types.ts` (src/src/types.ts): `colorToKey` / `keyToColor`;
* `fileIO.ts` (src/src/fileIO.ts): `parseMapFile`.

JavaScript `number` is modelled as `ℚ` (exact arithmetic idealisation of
float64); pixel buffers (`Uint8Array` of RGBA bytes in row-major order) are
modelled as functions from integer texel coordinates to an `RGBA` record,
with the same bounds checks the source performs before every access.
-/

/-- One RGBA texel of the raster: the four 8-bit channels of the source's
`Uint8Array` at indices `idx .. idx+3`. -/
structure RGBA where
  r : ℕ
  g : ℕ
  b : ℕ
  a : ℕ
deriving DecidableEq, Repr

/-- The pixel buffer, indexed by integer texel coordinates `(x, y)`.
The source stores it flat as `data[(y * width + x) * 4 .. +3]`; every access
in the source is bounds-checked first, so the function view is faithful on
the checked domain. -/
def Raster : Type := ℤ × ℤ → RGBA

/-- Pointwise update of one texel, as the source's four consecutive byte
stores `data[pi] = fr; data[pi+1] = fg; data[pi+2] = fb; data[pi+3] = 255`. -/
def setTexel (d : Raster) (c : ℤ × ℤ) (v : RGBA) : Raster :=
  fun p => if p = c then v else d p

/-- A `THREE.Color`: three float channels, each nominally in `[0,1]`. -/
structure Color where
  r : ℚ
  g : ℚ
  b : ℚ
deriving DecidableEq, Repr

/-- `Math.floor` on a JS number: the floor of the rational, computed on the
numerator/denominator pair so that it kernel-reduces. -/
def jsFloor (q : ℚ) : ℤ := Int.ediv q.num q.den

/-- `Math.round` on a JS number: round half toward positive infinity,
`⌊q + 1/2⌋`, which is exactly JS semantics for `Math.round`. -/
def jsRound (q : ℚ) : ℤ := jsFloor (q + 1/2)

/-! ## diplomacy.ts (src/unnamed/part_004) -/

/-- `type DiplomaticStatus = 'peace' | 'war'` (src/src/types.ts). -/
inductive DiplomaticStatus where
  | peace
  | war
deriving DecidableEq, Repr

/-- `DiplomacyState`: the `Map<string, DiplomaticStatus>` of relations.
A JS `Map` is modelled as an association list where `set` prepends and `get`
takes the first binding (equivalent observable behaviour for `get`). -/
structure DiplomacyState where
  relations : List (String × DiplomaticStatus)
deriving DecidableEq, Repr

/-- `createDiplomacyState()`. -/
def createDiplomacyState : DiplomacyState := ⟨[]⟩

/-- `getKey(a, b)`: `[a, b].sort().join('|')`.  JS `Array.prototype.sort`
orders the two strings by code units; on the ASCII color keys this coincides
with Lean's lexicographic `String` order used here. -/
def getKey (a b : String) : String :=
  if a ≤ b then a ++ "|" ++ b else b ++ "|" ++ a

/-- `map.get(k)` for the relations map: first binding of `k`, if any. -/
def mapGet (l : List (String × DiplomaticStatus)) (k : String) :
    Option DiplomaticStatus :=
  match l with
  | [] => none
  | (k', v) :: rest => if k' = k then some v else mapGet rest k

/-- `getRelation(state, a, b)`: peace when `a == b`, else the stored status
under the canonical key, defaulting to peace (`|| 'peace'`). -/
def getRelation (state : DiplomacyState) (a b : String) : DiplomaticStatus :=
  if a = b then .peace
  else (mapGet state.relations (getKey a b)).getD .peace

/-- `setRelation(state, a, b, status)`: stores under the canonical key when
`a !== b` (a `Map.set`, modelled by prepending the new binding). -/
def setRelation (state : DiplomacyState) (a b : String)
    (status : DiplomaticStatus) : DiplomacyState :=
  if a ≠ b then ⟨(getKey a b, status) :: state.relations⟩ else state

/-- `toggleRelation(state, a, b)`: flips the stored relation and returns the
new status; the mutation of the TS version is returned as the first
component. -/
def toggleRelation (state : DiplomacyState) (a b : String) :
    DiplomacyState × DiplomaticStatus :=
  let newStatus : DiplomaticStatus :=
    if getRelation state a b = .peace then .war else .peace
  (setRelation state a b newStatus, newStatus)

/-- `isAtWar(state, a, b)`. -/
def isAtWar (state : DiplomacyState) (a b : String) : Bool :=
  getRelation state a b = .war

/-! ## countryNaming.ts `leastSquaresFit` (src/unnamed/part_001 lines 10-16,
identical in src/unnamed/part_000 lines 17-33) -/

/-- `leastSquaresFit(n, sumXY, sumX, sumY, sumXSqr)`: closed-form
least-squares slope/intercept with the two degenerate fallbacks of the
source: `n < 2` returns `[0, 0]`, a denominator of magnitude `< 1e-10`
returns `[0, sumY / n]`. -/
def leastSquaresFit (n sumXY sumX sumY sumXSqr : ℚ) : ℚ × ℚ :=
  if n < 2 then (0, 0)
  else
    let denom := n * sumXSqr - sumX * sumX
    if |denom| < 1 / 10 ^ 10 then (0, sumY / n)
    else
      let k := (n * sumXY - sumX * sumY) / denom
      (k, (sumY - k * sumX) / n)

/-! ## floodFill (src/unnamed/part_006 lines 142-168)

The editor's flood fill reads a full snapshot (`getAllPixels`), mutates it in
place with an explicit stack and a `visited` bitmap, and commits it back
(`uploadPixels`).  The snapshot/commit pair is the identity on the pixel
content, so the embedding is the in-place algorithm on the `Raster` value.
`MAP_WIDTH`/`MAP_HEIGHT` are module constants in the source; they appear here
as the parameters `W`, `H`. -/

/-- The source's bounds test `x < 0 || x >= W || y < 0 || y >= H`, stated
positively. -/
def inBoundsZ (W H : ℕ) (c : ℤ × ℤ) : Prop :=
  0 ≤ c.1 ∧ c.1 < (W : ℤ) ∧ 0 ≤ c.2 ∧ c.2 < (H : ℤ)

instance (W H : ℕ) (c : ℤ × ℤ) : Decidable (inBoundsZ W H c) := by
  unfold inBoundsZ
  infer_instance

/-- All in-bounds texel coordinates, as a finite set (used only for the
termination measure and for counting). -/
def gridZ (W H : ℕ) : Finset (ℤ × ℤ) :=
  Finset.Icc 0 ((W : ℤ) - 1) ×ˢ Finset.Icc 0 ((H : ℤ) - 1)

/-- Storing a JS number into a `Uint8Array` keeps its value modulo 256. -/
def toByte (i : ℤ) : ℕ := (i % 256).toNat

/-- The texel value the fill writes: `data[pi] = fr; ...; data[pi + 3] = 255`.
`fr`, `fg`, `fb` are the raw rounded channels (JS numbers); the store wraps
them to bytes. -/
def fillTexel (fr fg fb : ℤ) : RGBA := ⟨toByte fr, toByte fg, toByte fb, 255⟩

/-- The `while (stack.length)` loop of `floodFill`: pop a coordinate, skip it
when out of bounds, already visited, or not of the seed's original color
`(tr, tg, tb)` in the *current* buffer; otherwise mark it visited, overwrite
it with the fill color, and push its four neighbours.  The stack is popped
from the head here; the source pushes `x+1, x-1, y+1, y-1` and pops last
first, so the pushed block is listed in reverse push order. -/
def floodLoop (W H : ℕ) (tr tg tb : ℕ) (fr fg fb : ℤ) (d : Raster)
    (v : Finset (ℤ × ℤ)) (stack : List (ℤ × ℤ)) : Raster × Finset (ℤ × ℤ) :=
  match stack with
  | [] => (d, v)
  | c :: rest =>
    if hin : ¬ inBoundsZ W H c then
      floodLoop W H tr tg tb fr fg fb d v rest
    else if hv : c ∈ v then
      floodLoop W H tr tg tb fr fg fb d v rest
    else if hcol : ¬ ((d c).r = tr ∧ (d c).g = tg ∧ (d c).b = tb) then
      floodLoop W H tr tg tb fr fg fb d v rest
    else
      floodLoop W H tr tg tb fr fg fb (setTexel d c (fillTexel fr fg fb))
        (insert c v)
        ((c.1, c.2 - 1) :: (c.1, c.2 + 1) :: (c.1 - 1, c.2) ::
          (c.1 + 1, c.2) :: rest)
termination_by 5 * ((gridZ W H) \ v).card + stack.length
decreasing_by
  · simp only [List.length_cons]
    omega
  · simp only [List.length_cons]
    omega
  · simp only [List.length_cons]
    omega
  · simp only [List.length_cons, Finset.sdiff_insert]
    have hmem : c ∈ gridZ W H \ v := by
      rw [Finset.mem_sdiff]
      refine ⟨?_, hv⟩
      rw [gridZ, Finset.mem_product, Finset.mem_Icc, Finset.mem_Icc]
      rcases not_not.mp hin with ⟨h1, h2, h3, h4⟩
      omega
    rw [Finset.card_erase_of_mem hmem]
    have hpos : 0 < (gridZ W H \ v).card := Finset.card_pos.mpr ⟨c, hmem⟩
    omega

/-- `floodFill(startX, startY, fillColor)` (src/unnamed/part_006 142-168):
floor the seed, reject out-of-bounds seeds, no-op when the seed texel's RGB
already equals the rounded fill color, else run the stack loop from the seed
against the seed's original RGB. -/
def floodFill (W H : ℕ) (d : Raster) (startX startY : ℚ) (fillColor : Color) :
    Raster :=
  let x := jsFloor startX
  let y := jsFloor startY
  if ¬ inBoundsZ W H (x, y) then d
  else
    let tr := (d (x, y)).r
    let tg := (d (x, y)).g
    let tb := (d (x, y)).b
    let fr := jsRound (fillColor.r * 255)
    let fg := jsRound (fillColor.g * 255)
    let fb := jsRound (fillColor.b * 255)
    if (tr : ℤ) = fr ∧ (tg : ℤ) = fg ∧ (tb : ℤ) = fb then d
    else (floodLoop W H tr tg tb fr fg fb d ∅ [(x, y)]).1

/-- 4-adjacency: the four neighbours the fill pushes. -/
def adj4 (a b : ℤ × ℤ) : Prop :=
  b = (a.1 + 1, a.2) ∨ b = (a.1 - 1, a.2)
    ∨ b = (a.1, a.2 + 1) ∨ b = (a.1, a.2 - 1)

/-- A texel that the fill may visit: in bounds and carrying the seed's
original RGB `t = (tr, tg, tb)` in the original raster. -/
def isTarget (W H : ℕ) (d : Raster) (t : ℕ × ℕ × ℕ) (c : ℤ × ℤ) : Prop :=
  inBoundsZ W H c ∧ (d c).r = t.1 ∧ (d c).g = t.2.1 ∧ (d c).b = t.2.2

/-- 4-connected reachability from the seed through texels of the seed's
original color (the seed itself included). -/
def Reach (W H : ℕ) (d : Raster) (t : ℕ × ℕ × ℕ) (seed c : ℤ × ℤ) : Prop :=
  isTarget W H d t seed
    ∧ Relation.ReflTransGen
        (fun p q => adj4 p q ∧ isTarget W H d t q) seed c

/-! ## types.ts `colorToKey` / `keyToColor` (src/src/types.ts lines 60-70)

The key is the JS template string `` `${r}_${g}_${b}` `` and `keyToColor`
parses it back with `key.split('_').map(Number)`.  The JS string runtime is
modelled at the character-list level: decimal rendering of an integer,
splitting on `'_'`, and `Number` on a canonical decimal string. -/

/-- The digit list of `n` in base 10, most significant first, as JS renders
a natural number (`"0"` for `0`). -/
def natToChars (n : ℕ) : List Char :=
  if n = 0 then ['0'] else ((Nat.digits 10 n).map Nat.digitChar).reverse

/-- JS decimal rendering of an integer (a leading `'-'` for negatives). -/
def intToChars (i : ℤ) : List Char :=
  if i < 0 then '-' :: natToChars i.natAbs else natToChars i.natAbs

/-- The numeric value of a decimal digit character. -/
def charToDigit (c : Char) : ℕ := c.toNat - '0'.toNat

/-- `Number(s)` on a canonical decimal string: digits, least significant
last (`Number("") = 0`; an optional leading `'-'` negates). -/
def charsToNat (s : List Char) : ℕ :=
  Nat.ofDigits 10 (s.map charToDigit).reverse

/-- `Number` on a canonical integer string. -/
def charsToNum (s : List Char) : ℚ :=
  match s with
  | [] => 0
  | c :: rest =>
    if c = '-' then -(charsToNat rest : ℚ) else (charsToNat (c :: rest) : ℚ)

/-- `key.split('_')` on the character list. -/
def splitOnUnderscore (s : List Char) : List (List Char) :=
  match s with
  | [] => [[]]
  | c :: rest =>
    if c = '_' then [] :: splitOnUnderscore rest
    else
      match splitOnUnderscore rest with
      | [] => [[c]]
      | f :: r => (c :: f) :: r

/-- `colorToKey(color)`: round each channel to 8 bits and join with `'_'`. -/
def colorToKey (c : Color) : List Char :=
  intToChars (jsRound (c.r * 255)) ++ '_' ::
    (intToChars (jsRound (c.g * 255)) ++ '_' ::
      intToChars (jsRound (c.b * 255)))

/-- `keyToColor(key)`: split on `'_'`, parse the three fields, divide by
255.  A JS destructuring of fewer than three fields yields `undefined`
(`NaN` after `Number`); those cases cannot arise from a well-formed key and
are mapped to 0 to keep the function total. -/
def keyToColor (k : List Char) : Color :=
  match splitOnUnderscore k with
  | r :: g :: b :: _ =>
    ⟨charsToNum r / 255, charsToNum g / 255, charsToNum b / 255⟩
  | [r, g] => ⟨charsToNum r / 255, charsToNum g / 255, 0⟩
  | [r] => ⟨charsToNum r / 255, 0, 0⟩
  | [] => ⟨0, 0, 0⟩

/-- A well-formed color key: three 8-bit decimal fields joined by `'_'`. -/
def mkKey (r g b : ℕ) : List Char :=
  natToChars r ++ '_' :: (natToChars g ++ '_' :: natToChars b)

/-! ## conquest.ts `conquestAlongPath` (src/src/conquest.ts lines 9-59) -/

/-- `Math.ceil` of the float square root of a nonnegative number, modelled
exactly: the least `n : ℕ` with `q ≤ n²` (which is `⌈√q⌉`). -/
def ceilSqrt (q : ℚ) : ℕ :=
  if q ≤ 0 then 0 else Nat.sqrt (⌈q⌉.toNat - 1) + 1

/-- The color key `` `${er}_${eg}_${eb}` `` of an existing texel, the string
looked up in the diplomacy state. -/
def colorKeyStr (r g b : ℕ) : String :=
  toString r ++ "_" ++ toString g ++ "_" ++ toString b

/-- The `{ pixelsPainted, needsUpdate }` record. -/
structure ConquestResult where
  pixelsPainted : ℕ
  needsUpdate : Bool
deriving DecidableEq, Repr

/-- The offsets `-radius .. radius` of the two inner `for` loops. -/
def offsetRange (radius : ℕ) : List ℤ :=
  (List.range (2 * radius + 1)).map (fun i => (i : ℤ) - radius)

/-- The innermost body of `conquestAlongPath`: one candidate texel at
offset `(dx, dy)` from the step position `pos`.  The four `continue` guards
of the source appear in order; a successful candidate is overwritten with
the attacker's color (alpha 255) and the counter incremented. -/
def conquestTexel (W H radius : ℕ) (pr pg pb : ℤ)
    (diplomacy : DiplomacyState) (countryId : String) (pos : ℚ × ℚ)
    (dx dy : ℤ) (st : Raster × ℕ) : Raster × ℕ :=
  if dx * dx + dy * dy > (radius : ℤ) * radius then st
  else
    let px := jsFloor (pos.1 + dx)
    let py := jsFloor (pos.2 + dy)
    if ¬ inBoundsZ W H (px, py) then st
    else
      let e := st.1 (px, py)
      if ((e.r : ℤ) = pr ∧ (e.g : ℤ) = pg ∧ (e.b : ℤ) = pb) then st
      else if (e.r > 240 ∧ e.g > 240 ∧ e.b > 240) then st
      else if (e.r < 15 ∧ e.g < 15 ∧ e.b < 15) then st
      else if ¬ isAtWar diplomacy countryId (colorKeyStr e.r e.g e.b) then st
      else (setTexel st.1 (px, py) (fillTexel pr pg pb), st.2 + 1)

/-- The disk of radius `radius` painted at one step position: the two
nested offset loops (`dy` outer, `dx` inner). -/
def paintDisk (W H radius : ℕ) (pr pg pb : ℤ)
    (diplomacy : DiplomacyState) (countryId : String) (pos : ℚ × ℚ)
    (st : Raster × ℕ) : Raster × ℕ :=
  (offsetRange radius).foldl (fun st1 dy =>
    (offsetRange radius).foldl (fun st2 dx =>
      conquestTexel W H radius pr pg pb diplomacy countryId pos dx dy st2)
      st1) st

/-- One consecutive path pair: convert both endpoints to pixel coordinates
(the `y` axis flipped), take `steps = max(1, ceil (pixel distance))`, and
paint a disk at each interpolated position `lerp(startPx, endPx, t/steps)`
for `t = 0 .. steps`. -/
def conquestSegment (W H radius : ℕ) (pr pg pb : ℤ)
    (diplomacy : DiplomacyState) (countryId : String) (sp ep : ℚ × ℚ)
    (st : Raster × ℕ) : Raster × ℕ :=
  let sx := sp.1 * W
  let sy := (1 - sp.2) * H
  let ex := ep.1 * W
  let ey := (1 - ep.2) * H
  let steps := max 1 (ceilSqrt ((ex - sx) ^ 2 + (ey - sy) ^ 2))
  (List.range (steps + 1)).foldl (fun st1 (t : ℕ) =>
    paintDisk W H radius pr pg pb diplomacy countryId
      (sx + ((t : ℚ) / (steps : ℚ)) * (ex - sx),
        sy + ((t : ℚ) / (steps : ℚ)) * (ey - sy))
      st1) st

/-- `conquestAlongPath(pixelData, width, height, path, color, radius,
diplomacy, countryId)`: fold the segment walk over the consecutive path
pairs, starting from the snapshot with 0 painted texels; the result carries
the final buffer alongside the source's return record. -/
def conquestAlongPath (pixelData : Raster) (W H : ℕ) (path : List (ℚ × ℚ))
    (color : Color) (radius : ℕ) (diplomacy : DiplomacyState)
    (countryId : String) : Raster × ConquestResult :=
  let pr := jsRound (color.r * 255)
  let pg := jsRound (color.g * 255)
  let pb := jsRound (color.b * 255)
  let fin := (path.zip path.tail).foldl
    (fun st pair =>
      conquestSegment W H radius pr pg pb diplomacy countryId
        pair.1 pair.2 st)
    (pixelData, 0)
  (fin.1, ⟨fin.2, decide (fin.2 > 0)⟩)

/-- The four overwrite conditions of `conquestAlongPath`, evaluated on an
existing texel value `e`: not already the attacker's color, not near-white,
not near-black, and at war with the owner's color key. -/
def conquerable (pr pg pb : ℤ) (diplomacy : DiplomacyState)
    (countryId : String) (e : RGBA) : Prop :=
  ¬ ((e.r : ℤ) = pr ∧ (e.g : ℤ) = pg ∧ (e.b : ℤ) = pb)
    ∧ ¬ (e.r > 240 ∧ e.g > 240 ∧ e.b > 240)
    ∧ ¬ (e.r < 15 ∧ e.g < 15 ∧ e.b < 15)
    ∧ isAtWar diplomacy countryId (colorKeyStr e.r e.g e.b) = true

/-- Invariant of the conquest walk relative to the entry snapshot `d0`:
every changed texel is in bounds, now carries the attacker's texel value,
and satisfied all four overwrite conditions on its original value; and the
counter equals the number of changed texels. -/
def ConquestInv (W H : ℕ) (pr pg pb : ℤ) (diplomacy : DiplomacyState)
    (countryId : String) (d0 : Raster) (st : Raster × ℕ) : Prop :=
  (∀ c, st.1 c ≠ d0 c →
    inBoundsZ W H c ∧ st.1 c = fillTexel pr pg pb
      ∧ conquerable pr pg pb diplomacy countryId (d0 c))
    ∧ st.2 = ((gridZ W H).filter (fun c => st.1 c ≠ d0 c)).card

/-- Scenario raster for the diplomacy-gated conquest check: one enemy-owned
texel `(100,100,100)` at `(1,1)` of a 4×4 field, near-white elsewhere. -/
def demoRaster : Raster := fun c =>
  if c = (1, 1) then ⟨100, 100, 100, 255⟩ else ⟨255, 255, 255, 255⟩

/-- Scenario path: both waypoints at the normalized position over texel
`(1,1)` (pixel coordinates `(1,1)` on the 4×4 field). -/
def demoPath : List (ℚ × ℚ) := [(1/4, 3/4), (1/4, 3/4)]

/-- Scenario attacker color: 8-bit `(200,0,0)` as a `[0,1]` color. -/
def demoColor : Color := ⟨200/255, 0, 0⟩

/-! ## fileIO.ts `parseMapFile` (src/src/fileIO.ts lines 173-177) and the
editor's `loadMap` (src/unnamed/part_006 lines 451-503)

`MapSaveData` is the parsed persistence record (`JSON.parse` is the JS
runtime and is modelled as already done); `parseMapFile` accepts versions 1
and 2 and returns `null` otherwise. -/

/-- One country entry of the persisted record. -/
structure CountryRec where
  id : String
  name : String
  color : Color
deriving Repr

/-- One city entry of the persisted record. -/
structure CityRec where
  id : String
  name : String
  size : ℚ
  position : ℚ × ℚ
deriving Repr

/-- The persisted `MapSaveData` record (src/src/types.ts lines 28-58). -/
structure MapSaveData where
  version : ℚ
  width : ℚ
  height : ℚ
  imageData : String
  countries : List CountryRec
  cities : List CityRec
  cityIdCounter : ℕ

/-- `parseMapFile(json)`: `null` unless the version is 1 or 2. -/
def parseMapFile (data : MapSaveData) : Option MapSaveData :=
  if data.version ≠ 1 ∧ data.version ≠ 2 then none else some data

/-- The editor state that `loadMap` may mutate: pixel raster, country
labels, cities and the city-id counter. -/
structure EditorState where
  raster : Raster
  countryLabels : List (String × String)
  cities : List (String × CityRec)
  cityIdCounter : ℕ

/-- `loadMap(file)` (src/unnamed/part_006 451-503): the version guard
`if (data.version !== 1 && data.version !== 2) { alert(...); return; }`
runs before any mutation; the accepted branch (`clear()`, the image decode
in `img.onload`, label/city rebuild, counter restore) is abstracted as the
continuation `applyImage`, since the claim constrains only the rejected
path. -/
def loadMap (applyImage : MapSaveData → EditorState → EditorState)
    (data : MapSaveData) (st : EditorState) : EditorState :=
  if data.version ≠ 1 ∧ data.version ≠ 2 then st
  else applyImage data st

/-! ## countryNaming.ts `traceLineSegment` / `normalizeTextDirection` /
`findBestLine` (src/unnamed/part_001 lines 50-109; src/unnamed/part_000 is
an earlier revision of the same module without the endpoint swap)

Segment lengths are carried as the squared Euclidean distance: the source
compares float `start.distanceTo(end)` values, and `√a < √b ↔ a < b` on
nonnegatives (`lenSq_lt_iff_dist_lt` below), so every comparison agrees.
Angles are exact reals (`Real.arctan`-based `atan2`), the idealisation of
the float `Math.atan2`. -/

/-- `'YKX' | 'XKY'`: `y = kx + m` or `x = ky + m`. -/
inductive LineType where
  | YKX
  | XKY
deriving DecidableEq, Repr

/-- A fitted candidate line. -/
structure Line where
  k : ℚ
  m : ℚ
  type : LineType
deriving Repr

/-- A traced run: endpoints and squared length (`stop` is the source's
`end`, a reserved word here). -/
structure Segment where
  start : ℚ × ℚ
  stop : ℚ × ℚ
  lenSq : ℚ
deriving DecidableEq, Repr

/-- Build a run record from its endpoints. -/
def segOf (s e : ℚ × ℚ) : Segment :=
  ⟨s, e, (e.1 - s.1) ^ 2 + (e.2 - s.2) ^ 2⟩

/-- The `isValid(x, y)` predicate of `traceLineSegment`: in bounds and
within ±5 of the target color at the floored texel. -/
def isValid (pixelData : Raster) (W H : ℕ) (tr tg tb : ℤ) (x y : ℚ) :
    Bool :=
  if x < 0 ∨ (W : ℚ) ≤ x ∨ y < 0 ∨ (H : ℚ) ≤ y then false
  else
    let e := pixelData (jsFloor x, jsFloor y)
    |(e.r : ℤ) - tr| ≤ 5 ∧ |(e.g : ℤ) - tg| ≤ 5 ∧ |(e.b : ℤ) - tb| ≤ 5

/-- The traversal position at index `i`: along `x` for a `y = kx + m`
line, along `y` for `x = ky + m`. -/
def iteratePos (line : Line) (i : ℕ) : ℚ × ℚ :=
  match line.type with
  | .YKX => ((i : ℚ), line.k * i + line.m)
  | .XKY => (line.k * i + line.m, (i : ℚ))

/-- The source's `reduce((a, b) => b.length > a.length ? b : a)` step. -/
def pickLonger (a b : Segment) : Segment :=
  if b.lenSq > a.lenSq then b else a

/-- `traceLineSegment(pixelData, width, height, targetColor, line)`: walk
the dominant axis, collect maximal contiguous valid runs, and return the
longest (or `none` when no texel matched). -/
def traceLineSegment (pixelData : Raster) (W H : ℕ) (targetColor : Color)
    (line : Line) : Option Segment :=
  let tr := jsRound (targetColor.r * 255)
  let tg := jsRound (targetColor.g * 255)
  let tb := jsRound (targetColor.b * 255)
  let bound := match line.type with
    | .YKX => W
    | .XKY => H
  let fin := (List.range bound).foldl
    (fun (st : List Segment × Option ((ℚ × ℚ) × (ℚ × ℚ))) (i : ℕ) =>
      let p := iteratePos line i
      if isValid pixelData W H tr tg tb p.1 p.2 then
        match st.2 with
        | none => (st.1, some (p, p))
        | some (s, _) => (st.1, some (s, p))
      else
        match st.2 with
        | some (s, e) => (st.1 ++ [segOf s e], none)
        | none => st)
    ([], none)
  let segments := match fin.2 with
    | some (s, e) => fin.1 ++ [segOf s e]
    | none => fin.1
  match segments with
  | [] => none
  | c :: cs => some (cs.foldl pickLonger c)

/-- The JS `Math.atan2(y, x)` as an exact real. -/
noncomputable def atan2 (y x : ℝ) : ℝ :=
  if 0 < x then Real.arctan (y / x)
  else if x < 0 then
    (if 0 ≤ y then Real.arctan (y / x) + Real.pi
      else Real.arctan (y / x) - Real.pi)
  else
    (if 0 < y then Real.pi / 2 else if y < 0 then -(Real.pi / 2) else 0)

open Classical in
/-- `normalizeTextDirection(start, end)`: the atan2 of the endpoint delta,
with the endpoints swapped and the angle rotated by π when it falls
outside `[-π/2, π/2]`. -/
noncomputable def normalizeTextDirection (s e : ℚ × ℚ) :
    (ℚ × ℚ) × (ℚ × ℚ) × ℝ :=
  let angle := atan2 ((e.2 : ℝ) - (s.2 : ℝ)) ((e.1 : ℝ) - (s.1 : ℝ))
  if angle > Real.pi / 2 then (e, s, angle - Real.pi)
  else if angle < -(Real.pi / 2) then (e, s, angle + Real.pi)
  else (s, e, angle)

/-- The candidate runs over all `(line, offset)` combinations, in the
source's push order. -/
def candidatesOf (pixelData : Raster) (W H : ℕ) (targetColor : Color)
    (lineYKX lineXKY : Line) : List Segment :=
  ([-30, -15, 0, 15, 30] : List ℚ).foldl
    (fun acc offset =>
      let acc1 := match traceLineSegment pixelData W H targetColor
          ⟨lineYKX.k, lineYKX.m + offset, lineYKX.type⟩ with
        | some seg => acc ++ [seg]
        | none => acc
      match traceLineSegment pixelData W H targetColor
          ⟨lineXKY.k, lineXKY.m + offset, lineXKY.type⟩ with
      | some seg => acc1 ++ [seg]
      | none => acc1)
    []

/-- `findBestLine`: the longest candidate run, its text direction
normalized. -/
noncomputable def findBestLine (pixelData : Raster) (W H : ℕ)
    (targetColor : Color) (lineYKX lineXKY : Line) :
    Option ((ℚ × ℚ) × (ℚ × ℚ) × ℝ) :=
  match candidatesOf pixelData W H targetColor lineYKX lineXKY with
  | [] => none
  | c :: cs =>
    some (normalizeTextDirection (cs.foldl pickLonger c).start
      (cs.foldl pickLonger c).stop)

/-! ## shaders.ts `jfaFrag` and `runJFA` (src/src/shaders.ts lines 60-102,
src/unnamed/part_006 lines 319-342)

The jump-flood state on an `N×N` field maps each texel index to the stored
nearest-seed candidate: `none` models the `(-1,-1)` sentinel, `some q` a
stored seed-texel coordinate (the shader stores the seed texel's center
`(q+0.5)/N` in UV units; all squared UV distances between texel centers are
integer squared index distances over `N²`, so every shader comparison is an
integer comparison here, and any real candidate distance `≤ 2 < 1e10`
always beats the sentinel's `1e10`).  Texture reads clamp to the edge
(`ClampToEdgeWrapping`, the render-target default). -/

/-- Clamp-to-edge sampling index. -/
def clampIdx (N : ℕ) (v : ℤ) : ℕ := (max 0 (min v ((N : ℤ) - 1))).toNat

/-- Squared distance between two texel indices (UV distances scale by
`1/N²`). -/
def distSqZ (p q : ℕ × ℕ) : ℤ :=
  ((p.1 : ℤ) - q.1) ^ 2 + ((p.2 : ℤ) - q.2) ^ 2

/-- The shader's `CHECK_NEIGHBOR`: skip sentinel neighbours, keep the
candidate strictly closer to this texel (`none` as current candidate is the
`1e10` sentinel that any real candidate beats). -/
def stepCandidate (p : ℕ × ℕ) (cur : Option ((ℕ × ℕ) × ℤ))
    (n : Option (ℕ × ℕ)) : Option ((ℕ × ℕ) × ℤ) :=
  match n with
  | none => cur
  | some q =>
    match cur with
    | none => some (q, distSqZ p q)
    | some (c, dc) =>
      if distSqZ p q < dc then some (q, distSqZ p q) else some (c, dc)

/-- The eight neighbour offsets `n0 .. n7` of `jfaFrag`, at step `s` texel
units. -/
def jfaOffsets (s : ℕ) : List (ℤ × ℤ) :=
  [(-(s : ℤ), -(s : ℤ)), (0, -(s : ℤ)), ((s : ℤ), -(s : ℤ)),
    (-(s : ℤ), 0), ((s : ℤ), 0),
    (-(s : ℤ), (s : ℤ)), (0, (s : ℤ)), ((s : ℤ), (s : ℤ))]

/-- A clamped texture read of the field. -/
def sampleJFA (f : ℕ × ℕ → Option (ℕ × ℕ)) (N : ℕ) (x y : ℤ) :
    Option (ℕ × ℕ) :=
  f (clampIdx N x, clampIdx N y)

/-- `jfaFrag` at one texel: start from the texel's own stored candidate,
fold the eight neighbour checks in shader order, output the winning seed
coordinate (the sentinel when none). -/
def jfaTexel (f : ℕ × ℕ → Option (ℕ × ℕ)) (N s : ℕ) (p : ℕ × ℕ) :
    Option (ℕ × ℕ) :=
  let init : Option ((ℕ × ℕ) × ℤ) :=
    match f p with
    | none => none
    | some q => some (q, distSqZ p q)
  let res := (jfaOffsets s).foldl
    (fun cur δ =>
      stepCandidate p cur (sampleJFA f N ((p.1 : ℤ) + δ.1) ((p.2 : ℤ) + δ.2)))
    init
  match res with
  | none => none
  | some (c, _) => some c

/-- One full-screen jump-flood pass at step `s`. -/
def jfaPass (f : ℕ × ℕ → Option (ℕ × ℕ)) (N s : ℕ) :
    ℕ × ℕ → Option (ℕ × ℕ) :=
  fun p => jfaTexel f N s p

/-- `runJFA`'s pass loop over the descending step sequence (ping-pong
buffering is the identity on the stored content). -/
def runJFA (f : ℕ × ℕ → Option (ℕ × ℕ)) (N : ℕ) (steps : List ℕ) :
    ℕ × ℕ → Option (ℕ × ℕ) :=
  steps.foldl (fun g s => jfaPass g N s) f

/-- `const jfaSteps = [32, 16, 8, 4, 2, 1]` (src/unnamed/part_006 line
99). -/
def jfaSteps : List ℕ := [32, 16, 8, 4, 2, 1]

/-- An `N×N` field holding exactly one seed texel. -/
def seedField (seed : ℕ × ℕ) : ℕ × ℕ → Option (ℕ × ℕ) :=
  fun p => if p = seed then some seed else none

/-- The descending power-of-two step sequence `[2^(k-1), ..., 2, 1]`;
`jfaSteps = powersList 6`. -/
def powersList : ℕ → List ℕ
  | 0 => []
  | k + 1 => 2 ^ k :: powersList k

/-! ## Theorems -/

theorem mem_gridZ {W H : ℕ} {c : ℤ × ℤ} :
    c ∈ gridZ W H ↔ inBoundsZ W H c := by
  rw [gridZ, Finset.mem_product, Finset.mem_Icc, Finset.mem_Icc, inBoundsZ]
  omega

/-- Everything the flood-fill loop establishes, by functional induction on
the loop: the visited set only grows; every visited texel is 4-reachable
from the seed through the seed's original color; on exit the visited set is
closed under target adjacency; every stack entry of the target color ends
visited; and the buffer equals the original overwritten on exactly the
visited set. -/
theorem floodLoop_invariant (W H : ℕ) (t : ℕ × ℕ × ℕ) (fr fg fb : ℤ)
    (d0 : Raster) (seed : ℤ × ℤ) :
    ∀ (d : Raster) (v : Finset (ℤ × ℤ)) (stack : List (ℤ × ℤ)),
      (∀ c, d c = if c ∈ v then fillTexel fr fg fb else d0 c) →
      (∀ c, c ∈ v → Reach W H d0 t seed c) →
      (∀ c, c ∈ stack → isTarget W H d0 t c → Reach W H d0 t seed c) →
      (∀ a, a ∈ v → ∀ b, adj4 a b → isTarget W H d0 t b →
          b ∈ v ∨ b ∈ stack) →
      v ⊆ (floodLoop W H t.1 t.2.1 t.2.2 fr fg fb d v stack).2
      ∧ (∀ c, c ∈ (floodLoop W H t.1 t.2.1 t.2.2 fr fg fb d v stack).2 →
          Reach W H d0 t seed c)
      ∧ (∀ a, a ∈ (floodLoop W H t.1 t.2.1 t.2.2 fr fg fb d v stack).2 →
          ∀ b, adj4 a b → isTarget W H d0 t b →
            b ∈ (floodLoop W H t.1 t.2.1 t.2.2 fr fg fb d v stack).2)
      ∧ (∀ c, c ∈ stack → isTarget W H d0 t c →
          c ∈ (floodLoop W H t.1 t.2.1 t.2.2 fr fg fb d v stack).2)
      ∧ (∀ c, (floodLoop W H t.1 t.2.1 t.2.2 fr fg fb d v stack).1 c
          = if c ∈ (floodLoop W H t.1 t.2.1 t.2.2 fr fg fb d v stack).2
            then fillTexel fr fg fb else d0 c) := by
  intro d v stack
  induction d, v, stack using floodLoop.induct W H t.1 t.2.1 t.2.2 fr fg fb with
  | case1 d v =>
    intro hd hv _hstack hclosure
    rw [floodLoop]
    refine ⟨le_refl v, hv, ?_, by simp, hd⟩
    intro a ha b hadj htb
    rcases hclosure a ha b hadj htb with h | h
    · exact h
    · exact absurd h (List.not_mem_nil b)
  | case2 d v c rest hin ih =>
    intro hd hv hstack hclosure
    rw [floodLoop, dif_pos hin]
    refine ih hd hv (fun p hp htp => hstack p (List.mem_cons_of_mem c hp) htp)
      (fun a ha b hadj htb => ?_) |>.imp_right
        (fun h => ⟨h.1, h.2.1, fun p hp htp => ?_, h.2.2.2⟩)
    · rcases hclosure a ha b hadj htb with h | h
      · exact Or.inl h
      · rcases List.mem_cons.mp h with rfl | h
        · exact absurd htb.1 hin
        · exact Or.inr h
    · rcases List.mem_cons.mp hp with rfl | hp
      · exact absurd htp.1 hin
      · exact h.2.2.1 p hp htp
  | case3 d v c rest hin hvmem ih =>
    intro hd hv hstack hclosure
    rw [floodLoop, dif_neg hin, dif_pos hvmem]
    have res := ih hd hv (fun p hp htp => hstack p (List.mem_cons_of_mem c hp) htp)
      (fun a ha b hadj htb => ?_)
    · refine ⟨res.1, res.2.1, res.2.2.1, fun p hp htp => ?_, res.2.2.2.2⟩
      rcases List.mem_cons.mp hp with rfl | hp
      · exact res.1 hvmem
      · exact res.2.2.2.1 p hp htp
    · rcases hclosure a ha b hadj htb with h | h
      · exact Or.inl h
      · rcases List.mem_cons.mp h with rfl | h
        · exact Or.inl hvmem
        · exact Or.inr h
  | case4 d v c rest hin hvmem hcol ih =>
    intro hd hv hstack hclosure
    rw [floodLoop, dif_neg hin, dif_neg hvmem, dif_pos hcol]
    have hdc : d c = d0 c := by
      rw [hd c, if_neg hvmem]
    have hnt : ¬ isTarget W H d0 t c := by
      intro ht
      exact hcol ⟨by rw [hdc]; exact ht.2.1,
        by rw [hdc]; exact ht.2.2.1, by rw [hdc]; exact ht.2.2.2⟩
    have res := ih hd hv (fun p hp htp => hstack p (List.mem_cons_of_mem c hp) htp)
      (fun a ha b hadj htb => ?_)
    · refine ⟨res.1, res.2.1, res.2.2.1, fun p hp htp => ?_, res.2.2.2.2⟩
      rcases List.mem_cons.mp hp with rfl | hp
      · exact absurd htp hnt
      · exact res.2.2.2.1 p hp htp
    · rcases hclosure a ha b hadj htb with h | h
      · exact Or.inl h
      · rcases List.mem_cons.mp h with rfl | h
        · exact absurd htb hnt
        · exact Or.inr h
  | case5 d v c rest hin hvmem hcol ih =>
    intro hd hv hstack hclosure
    rw [floodLoop, dif_neg hin, dif_neg hvmem, dif_neg hcol]
    have hdc : d c = d0 c := by
      rw [hd c, if_neg hvmem]
    have hbnd : inBoundsZ W H c := not_not.mp hin
    have htc : isTarget W H d0 t c := by
      rcases not_not.mp hcol with ⟨h1, h2, h3⟩
      exact ⟨hbnd, by rw [← hdc]; exact h1, by rw [← hdc]; exact h2,
        by rw [← hdc]; exact h3⟩
    have hreach : Reach W H d0 t seed c :=
      hstack c (List.mem_cons_self c rest) htc
    have hpush : ∀ b, adj4 c b →
        b ∈ ((c.1, c.2 - 1) :: (c.1, c.2 + 1) :: (c.1 - 1, c.2) ::
          (c.1 + 1, c.2) :: rest) := by
      intro b hb
      rcases hb with rfl | rfl | rfl | rfl <;> simp
    have res := ih
      (fun p => ?_) (fun p hp => ?_) (fun p hp htp => ?_)
      (fun a ha b hadj htb => ?_)
    · refine ⟨fun p hp => res.1 (Finset.mem_insert_of_mem hp), res.2.1,
        res.2.2.1, fun p hp htp => ?_, res.2.2.2.2⟩
      rcases List.mem_cons.mp hp with rfl | hp
      · exact res.1 (Finset.mem_insert_self p v)
      · exact res.2.2.2.1 p (by simp [hp]) htp
    · -- buffer after the write is the original overwritten on `insert c v`
      rw [setTexel]
      by_cases hpc : p = c
      · subst hpc
        simp
      · rw [if_neg hpc, hd p]
        by_cases hpv : p ∈ v
        · rw [if_pos hpv, if_pos (Finset.mem_insert_of_mem hpv)]
        · rw [if_neg hpv, if_neg (by simp [hpc, hpv])]
    · -- every newly visited texel is reachable
      rcases Finset.mem_insert.mp hp with rfl | hp
      · exact hreach
      · exact hv p hp
    · -- pushed neighbours of a reachable target texel are reachable
      rcases List.mem_cons.mp hp with rfl | hp
      · exact ⟨hreach.1, hreach.2.tail ⟨Or.inr (Or.inr (Or.inr rfl)), htp⟩⟩
      · rcases List.mem_cons.mp hp with rfl | hp
        · exact ⟨hreach.1, hreach.2.tail ⟨Or.inr (Or.inr (Or.inl rfl)), htp⟩⟩
        · rcases List.mem_cons.mp hp with rfl | hp
          · exact ⟨hreach.1, hreach.2.tail ⟨Or.inr (Or.inl rfl), htp⟩⟩
          · rcases List.mem_cons.mp hp with rfl | hp
            · exact ⟨hreach.1, hreach.2.tail ⟨Or.inl rfl, htp⟩⟩
            · exact hstack p (List.mem_cons_of_mem c hp) htp
    · -- closure is maintained across the push
      rcases Finset.mem_insert.mp ha with rfl | ha
      · exact Or.inr (hpush b hadj)
      · rcases hclosure a ha b hadj htb with h | h
        · exact Or.inl (Finset.mem_insert_of_mem h)
        · rcases List.mem_cons.mp h with rfl | h
          · exact Or.inl (Finset.mem_insert_self b v)
          · exact Or.inr (by simp [h])

theorem jsFloor_eq (q : ℚ) : jsFloor q = ⌊q⌋ := by
  rw [Rat.floor_def]
  rfl

theorem jsRound_eq (q : ℚ) : jsRound q = round q := by
  rw [jsRound, jsFloor_eq, round_eq]

/-- Reachable texels carry the target color (the seed included). -/
theorem Reach.isTarget_of {W H : ℕ} {d : Raster} {t : ℕ × ℕ × ℕ}
    {seed c : ℤ × ℤ} (h : Reach W H d t seed c) : isTarget W H d t c := by
  rcases h with ⟨hseed, hchain⟩
  induction hchain with
  | refl => exact hseed
  | tail _ hstep _ => exact hstep.2

/-- An out-of-bounds seed makes `floodFill` the identity. -/
theorem floodFill_oob {W H : ℕ} (d : Raster) {sx sy : ℚ} (fillColor : Color)
    (h : ¬ inBoundsZ W H (jsFloor sx, jsFloor sy)) :
    floodFill W H d sx sy fillColor = d := by
  simp only [floodFill]
  rw [if_pos h]

/-- A seed texel already equal to the rounded fill color makes `floodFill`
the identity. -/
theorem floodFill_noop {W H : ℕ} (d : Raster) {sx sy : ℚ} (fillColor : Color)
    (hin : inBoundsZ W H (jsFloor sx, jsFloor sy))
    (hmatch : ((d (jsFloor sx, jsFloor sy)).r : ℤ) = jsRound (fillColor.r * 255)
      ∧ ((d (jsFloor sx, jsFloor sy)).g : ℤ) = jsRound (fillColor.g * 255)
      ∧ ((d (jsFloor sx, jsFloor sy)).b : ℤ) = jsRound (fillColor.b * 255)) :
    floodFill W H d sx sy fillColor = d := by
  simp only [floodFill]
  rw [if_neg (not_not_intro hin), if_pos hmatch]

/-- When the seed differs from the fill color, `floodFill` overwrites exactly
the 4-connected region of the seed's original color: reachable texels become
the (byte-wrapped) fill value with alpha 255, all other texels keep their
value. -/
theorem floodFill_run {W H : ℕ} (d : Raster) (sx sy : ℚ) (fillColor : Color)
    (hin : inBoundsZ W H (jsFloor sx, jsFloor sy))
    (hne : ¬ (((d (jsFloor sx, jsFloor sy)).r : ℤ) = jsRound (fillColor.r * 255)
      ∧ ((d (jsFloor sx, jsFloor sy)).g : ℤ) = jsRound (fillColor.g * 255)
      ∧ ((d (jsFloor sx, jsFloor sy)).b : ℤ) = jsRound (fillColor.b * 255))) :
    ∀ c,
      (Reach W H d ((d (jsFloor sx, jsFloor sy)).r,
          (d (jsFloor sx, jsFloor sy)).g, (d (jsFloor sx, jsFloor sy)).b)
          (jsFloor sx, jsFloor sy) c →
        floodFill W H d sx sy fillColor c
          = fillTexel (jsRound (fillColor.r * 255)) (jsRound (fillColor.g * 255))
              (jsRound (fillColor.b * 255)))
      ∧ (¬ Reach W H d ((d (jsFloor sx, jsFloor sy)).r,
          (d (jsFloor sx, jsFloor sy)).g, (d (jsFloor sx, jsFloor sy)).b)
          (jsFloor sx, jsFloor sy) c →
        floodFill W H d sx sy fillColor c = d c) := by
  have hstart : floodFill W H d sx sy fillColor
      = (floodLoop W H
          ((d (jsFloor sx, jsFloor sy)).r, (d (jsFloor sx, jsFloor sy)).g,
            (d (jsFloor sx, jsFloor sy)).b).1
          ((d (jsFloor sx, jsFloor sy)).r, (d (jsFloor sx, jsFloor sy)).g,
            (d (jsFloor sx, jsFloor sy)).b).2.1
          ((d (jsFloor sx, jsFloor sy)).r, (d (jsFloor sx, jsFloor sy)).g,
            (d (jsFloor sx, jsFloor sy)).b).2.2
          (jsRound (fillColor.r * 255)) (jsRound (fillColor.g * 255))
          (jsRound (fillColor.b * 255)) d ∅ [(jsFloor sx, jsFloor sy)]).1 := by
    simp only [floodFill]
    rw [if_neg (not_not_intro hin), if_neg hne]
  have hseedT : isTarget W H d
      ((d (jsFloor sx, jsFloor sy)).r, (d (jsFloor sx, jsFloor sy)).g,
        (d (jsFloor sx, jsFloor sy)).b) (jsFloor sx, jsFloor sy) :=
    ⟨hin, rfl, rfl, rfl⟩
  obtain ⟨hsub, hsound, hclos, htrans, hdata⟩ :=
    floodLoop_invariant W H
      ((d (jsFloor sx, jsFloor sy)).r, (d (jsFloor sx, jsFloor sy)).g,
        (d (jsFloor sx, jsFloor sy)).b)
      (jsRound (fillColor.r * 255)) (jsRound (fillColor.g * 255))
      (jsRound (fillColor.b * 255)) d (jsFloor sx, jsFloor sy) d ∅
      [(jsFloor sx, jsFloor sy)]
      (fun c => by simp)
      (fun c hc => absurd hc (Finset.not_mem_empty c))
      (fun c hc htc => by
        rcases List.mem_singleton.mp hc with rfl
        exact ⟨htc, Relation.ReflTransGen.refl⟩)
      (fun a ha => absurd ha (Finset.not_mem_empty a))
  have hseedmem := htrans (jsFloor sx, jsFloor sy)
    (List.mem_singleton.mpr rfl) hseedT
  have hreach_mem : ∀ c,
      Reach W H d ((d (jsFloor sx, jsFloor sy)).r,
        (d (jsFloor sx, jsFloor sy)).g, (d (jsFloor sx, jsFloor sy)).b)
        (jsFloor sx, jsFloor sy) c →
      c ∈ (floodLoop W H
        ((d (jsFloor sx, jsFloor sy)).r, (d (jsFloor sx, jsFloor sy)).g,
          (d (jsFloor sx, jsFloor sy)).b).1
        ((d (jsFloor sx, jsFloor sy)).r, (d (jsFloor sx, jsFloor sy)).g,
          (d (jsFloor sx, jsFloor sy)).b).2.1
        ((d (jsFloor sx, jsFloor sy)).r, (d (jsFloor sx, jsFloor sy)).g,
          (d (jsFloor sx, jsFloor sy)).b).2.2
        (jsRound (fillColor.r * 255)) (jsRound (fillColor.g * 255))
        (jsRound (fillColor.b * 255)) d ∅ [(jsFloor sx, jsFloor sy)]).2 := by
    have hchain : ∀ c,
        Relation.ReflTransGen
          (fun p q => adj4 p q ∧ isTarget W H d
            ((d (jsFloor sx, jsFloor sy)).r, (d (jsFloor sx, jsFloor sy)).g,
              (d (jsFloor sx, jsFloor sy)).b) q)
          (jsFloor sx, jsFloor sy) c →
        c ∈ (floodLoop W H
          ((d (jsFloor sx, jsFloor sy)).r, (d (jsFloor sx, jsFloor sy)).g,
            (d (jsFloor sx, jsFloor sy)).b).1
          ((d (jsFloor sx, jsFloor sy)).r, (d (jsFloor sx, jsFloor sy)).g,
            (d (jsFloor sx, jsFloor sy)).b).2.1
          ((d (jsFloor sx, jsFloor sy)).r, (d (jsFloor sx, jsFloor sy)).g,
            (d (jsFloor sx, jsFloor sy)).b).2.2
          (jsRound (fillColor.r * 255)) (jsRound (fillColor.g * 255))
          (jsRound (fillColor.b * 255)) d ∅ [(jsFloor sx, jsFloor sy)]).2 := by
      intro c hch
      induction hch with
      | refl => exact hseedmem
      | tail _ hstep ih => exact hclos _ ih _ hstep.1 hstep.2
    exact fun c hr => hchain c hr.2
  intro c
  constructor
  · intro hr
    rw [hstart, hdata c, if_pos (hreach_mem c hr)]
  · intro hr
    rw [hstart, hdata c, if_neg (fun hmem => hr (hsound c hmem))]

/-- On a raster whose every in-bounds texel carries the target color, every
in-bounds texel is 4-connected to every in-bounds seed. -/
theorem reach_chain_of_uniform (W H : ℕ) (d : Raster) (t : ℕ × ℕ × ℕ)
    (huni : ∀ c, inBoundsZ W H c → isTarget W H d t c) :
    ∀ (n : ℕ) (s p : ℤ × ℤ), inBoundsZ W H s → inBoundsZ W H p →
      (p.1 - s.1).natAbs + (p.2 - s.2).natAbs = n →
      Relation.ReflTransGen (fun a b => adj4 a b ∧ isTarget W H d t b) s p := by
  intro n
  induction n using Nat.strong_induction_on with
  | _ n ih =>
    intro s p hs hp hn
    rcases lt_trichotomy s.1 p.1 with hx | hx | hx
    · -- step right
      have hs' : inBoundsZ W H (s.1 + 1, s.2) := by
        rcases hs with ⟨a1, a2, a3, a4⟩
        rcases hp with ⟨b1, b2, b3, b4⟩
        exact ⟨by omega, by omega, a3, a4⟩
      refine Relation.ReflTransGen.head ⟨Or.inl rfl, huni _ hs'⟩
        (ih ((p.1 - (s.1 + 1)).natAbs + (p.2 - s.2).natAbs) (by omega)
          (s.1 + 1, s.2) p hs' hp rfl)
    · rcases lt_trichotomy s.2 p.2 with hy | hy | hy
      · -- step up
        have hs' : inBoundsZ W H (s.1, s.2 + 1) := by
          rcases hs with ⟨a1, a2, a3, a4⟩
          rcases hp with ⟨b1, b2, b3, b4⟩
          exact ⟨a1, a2, by omega, by omega⟩
        refine Relation.ReflTransGen.head
          ⟨Or.inr (Or.inr (Or.inl rfl)), huni _ hs'⟩
          (ih ((p.1 - s.1).natAbs + (p.2 - (s.2 + 1)).natAbs) (by omega)
            (s.1, s.2 + 1) p hs' hp rfl)
      · have : s = p := Prod.ext hx hy
        subst this
        exact Relation.ReflTransGen.refl
      · -- step down
        have hs' : inBoundsZ W H (s.1, s.2 - 1) := by
          rcases hs with ⟨a1, a2, a3, a4⟩
          rcases hp with ⟨b1, b2, b3, b4⟩
          exact ⟨a1, a2, by omega, by omega⟩
        refine Relation.ReflTransGen.head
          ⟨Or.inr (Or.inr (Or.inr rfl)), huni _ hs'⟩
          (ih ((p.1 - s.1).natAbs + (p.2 - (s.2 - 1)).natAbs) (by omega)
            (s.1, s.2 - 1) p hs' hp rfl)
    · -- step left
      have hs' : inBoundsZ W H (s.1 - 1, s.2) := by
        rcases hs with ⟨a1, a2, a3, a4⟩
        rcases hp with ⟨b1, b2, b3, b4⟩
        exact ⟨by omega, by omega, a3, a4⟩
      refine Relation.ReflTransGen.head ⟨Or.inr (Or.inl rfl), huni _ hs'⟩
        (ih ((p.1 - (s.1 - 1)).natAbs + (p.2 - s.2).natAbs) (by omega)
          (s.1 - 1, s.2) p hs' hp rfl)

/-- **C1.** For every in-bounds seed, `floodFill` is a no-op when the seed
texel's RGB already equals the rounded fill color; otherwise it overwrites
exactly the 4-connected texels reachable from the seed through the seed's
original color (they receive the fill color with alpha 255), leaves
unreachable texels — in particular every texel whose original color differs
from the seed's — unchanged; and on a uniformly `(255,0,0,255)` raster a
fill with color `(0,255,0)` (channels `(0,1,0)` before 8-bit rounding) turns
every in-bounds texel into `(0,255,0,255)`. -/
theorem floodFill_exact_region (W H : ℕ) (d : Raster) (sx sy : ℚ)
    (fillColor : Color)
    (hin : inBoundsZ W H (jsFloor sx, jsFloor sy)) :
    ((((d (jsFloor sx, jsFloor sy)).r : ℤ) = jsRound (fillColor.r * 255)
        ∧ ((d (jsFloor sx, jsFloor sy)).g : ℤ) = jsRound (fillColor.g * 255)
        ∧ ((d (jsFloor sx, jsFloor sy)).b : ℤ) = jsRound (fillColor.b * 255)) →
      floodFill W H d sx sy fillColor = d)
    ∧ (¬ (((d (jsFloor sx, jsFloor sy)).r : ℤ) = jsRound (fillColor.r * 255)
        ∧ ((d (jsFloor sx, jsFloor sy)).g : ℤ) = jsRound (fillColor.g * 255)
        ∧ ((d (jsFloor sx, jsFloor sy)).b : ℤ) = jsRound (fillColor.b * 255)) →
      ∀ c,
        (Reach W H d ((d (jsFloor sx, jsFloor sy)).r,
            (d (jsFloor sx, jsFloor sy)).g, (d (jsFloor sx, jsFloor sy)).b)
            (jsFloor sx, jsFloor sy) c →
          floodFill W H d sx sy fillColor c
            = fillTexel (jsRound (fillColor.r * 255))
                (jsRound (fillColor.g * 255)) (jsRound (fillColor.b * 255)))
        ∧ (¬ Reach W H d ((d (jsFloor sx, jsFloor sy)).r,
            (d (jsFloor sx, jsFloor sy)).g, (d (jsFloor sx, jsFloor sy)).b)
            (jsFloor sx, jsFloor sy) c →
          floodFill W H d sx sy fillColor c = d c)
        ∧ (¬ ((d c).r = (d (jsFloor sx, jsFloor sy)).r
            ∧ (d c).g = (d (jsFloor sx, jsFloor sy)).g
            ∧ (d c).b = (d (jsFloor sx, jsFloor sy)).b) →
          floodFill W H d sx sy fillColor c = d c))
    ∧ ((∀ c, inBoundsZ W H c → d c = ⟨255, 0, 0, 255⟩) →
        fillColor = ⟨0, 1, 0⟩ →
        ∀ c, inBoundsZ W H c →
          floodFill W H d sx sy fillColor c = ⟨0, 255, 0, 255⟩) := by
  refine ⟨fun hmatch => floodFill_noop d fillColor hin hmatch,
    fun hne c => ?_, fun huni hfill c hc => ?_⟩
  · obtain ⟨h1, h2⟩ := floodFill_run d sx sy fillColor hin hne c
    refine ⟨h1, h2, fun hdiff => h2 (fun hr => hdiff ?_)⟩
    have ht := hr.isTarget_of
    exact ⟨ht.2.1, ht.2.2.1, ht.2.2.2⟩
  · subst hfill
    have hfr : jsRound ((Color.mk 0 1 0).r * 255) = 0 := by
      rw [jsRound_eq]
      norm_num
    have hfb : jsRound ((Color.mk 0 1 0).b * 255) = 0 := by
      rw [jsRound_eq]
      norm_num
    have hfg : jsRound ((Color.mk 0 1 0).g * 255) = 255 := by
      rw [jsRound_eq]
      have h255 : ((Color.mk 0 1 0).g * 255 : ℚ) = ((255 : ℤ) : ℚ) := by
        norm_num
      rw [h255, round_intCast]
    have hseedval : d (jsFloor sx, jsFloor sy) = ⟨255, 0, 0, 255⟩ :=
      huni _ hin
    have hne : ¬ (((d (jsFloor sx, jsFloor sy)).r : ℤ)
          = jsRound ((Color.mk 0 1 0).r * 255)
        ∧ ((d (jsFloor sx, jsFloor sy)).g : ℤ)
          = jsRound ((Color.mk 0 1 0).g * 255)
        ∧ ((d (jsFloor sx, jsFloor sy)).b : ℤ)
          = jsRound ((Color.mk 0 1 0).b * 255)) := by
      rw [hseedval, hfr]
      intro hcon
      exact absurd hcon.1 (by norm_num)
    have huni' : ∀ p, inBoundsZ W H p →
        isTarget W H d ((d (jsFloor sx, jsFloor sy)).r,
          (d (jsFloor sx, jsFloor sy)).g, (d (jsFloor sx, jsFloor sy)).b) p := by
      intro p hp
      refine ⟨hp, ?_, ?_, ?_⟩ <;> rw [huni p hp, hseedval]
    have hReach : Reach W H d ((d (jsFloor sx, jsFloor sy)).r,
        (d (jsFloor sx, jsFloor sy)).g, (d (jsFloor sx, jsFloor sy)).b)
        (jsFloor sx, jsFloor sy) c :=
      ⟨huni' _ hin,
        reach_chain_of_uniform W H d _ huni'
          ((c.1 - (jsFloor sx, jsFloor sy).1).natAbs
            + (c.2 - (jsFloor sx, jsFloor sy).2).natAbs)
          (jsFloor sx, jsFloor sy) c hin hc rfl⟩
    have hres := (floodFill_run d sx sy (Color.mk 0 1 0) hin hne c).1 hReach
    rw [hres]
    simp only [hfr, hfg, hfb]
    decide

/-- Rounded channels of a `[0,1]` color are bytes, so the byte store keeps
them exactly. -/
theorem jsRound_channel_byte {q : ℚ} (h0 : 0 ≤ q) (h1 : q ≤ 1) :
    ((toByte (jsRound (q * 255)) : ℤ)) = jsRound (q * 255)
      ∧ 0 ≤ jsRound (q * 255) ∧ jsRound (q * 255) ≤ 255 := by
  rw [jsRound_eq, round_eq]
  have hlow : (0 : ℤ) ≤ ⌊q * 255 + 1 / 2⌋ := by
    rw [Int.le_floor]
    push_cast
    nlinarith
  have hup : ⌊q * 255 + 1 / 2⌋ < 256 := by
    rw [Int.floor_lt]
    push_cast
    nlinarith
  refine ⟨?_, hlow, by omega⟩
  rw [toByte, Int.emod_eq_of_lt hlow (by omega)]
  exact Int.toNat_of_nonneg hlow

/-- **C7.** `floodFill` is idempotent: a second call with the identical seed
and fill color changes nothing.  The fill color is a `THREE.Color`, whose
channels lie in `[0,1]`. -/
theorem floodFill_idempotent (W H : ℕ) (d : Raster) (sx sy : ℚ)
    (fillColor : Color)
    (h01 : 0 ≤ fillColor.r ∧ fillColor.r ≤ 1 ∧ 0 ≤ fillColor.g
      ∧ fillColor.g ≤ 1 ∧ 0 ≤ fillColor.b ∧ fillColor.b ≤ 1) :
    floodFill W H (floodFill W H d sx sy fillColor) sx sy fillColor
      = floodFill W H d sx sy fillColor := by
  obtain ⟨hr0, hr1, hg0, hg1, hb0, hb1⟩ := h01
  by_cases hin : inBoundsZ W H (jsFloor sx, jsFloor sy)
  · by_cases hmatch : ((d (jsFloor sx, jsFloor sy)).r : ℤ)
        = jsRound (fillColor.r * 255)
      ∧ ((d (jsFloor sx, jsFloor sy)).g : ℤ) = jsRound (fillColor.g * 255)
      ∧ ((d (jsFloor sx, jsFloor sy)).b : ℤ) = jsRound (fillColor.b * 255)
    · have h := floodFill_noop d fillColor hin hmatch
      rw [h]
      exact h
    · have hseedfill : (floodFill W H d sx sy fillColor)
          (jsFloor sx, jsFloor sy)
          = fillTexel (jsRound (fillColor.r * 255))
              (jsRound (fillColor.g * 255)) (jsRound (fillColor.b * 255)) :=
        (floodFill_run d sx sy fillColor hin hmatch _).1
          ⟨⟨hin, rfl, rfl, rfl⟩, Relation.ReflTransGen.refl⟩
      refine floodFill_noop _ fillColor hin ?_
      rw [hseedfill]
      exact ⟨(jsRound_channel_byte hr0 hr1).1, (jsRound_channel_byte hg0 hg1).1,
        (jsRound_channel_byte hb0 hb1).1⟩
  · rw [floodFill_oob d fillColor hin,
      floodFill_oob d fillColor hin]

theorem charToDigit_digitChar {d : ℕ} (hd : d < 10) :
    charToDigit d.digitChar = d := by
  interval_cases d <;> decide

theorem natToChars_digits {n : ℕ} {c : Char} (hc : c ∈ natToChars n) :
    c ≠ '_' ∧ c ≠ '-' := by
  unfold natToChars at hc
  split at hc
  · rcases List.mem_singleton.mp hc with rfl
    exact ⟨by decide, by decide⟩
  · rw [List.mem_reverse, List.mem_map] at hc
    obtain ⟨d, hd, rfl⟩ := hc
    have hlt : d < 10 := Nat.digits_lt_base (by norm_num) hd
    interval_cases d <;> exact ⟨by decide, by decide⟩

theorem natToChars_ne_nil (n : ℕ) : natToChars n ≠ [] := by
  unfold natToChars
  split
  · exact List.cons_ne_nil _ _
  · next h =>
    intro hnil
    rw [List.reverse_eq_nil_iff, List.map_eq_nil_iff] at hnil
    exact h (Nat.digits_eq_nil_iff_eq_zero.mp hnil)

theorem charsToNat_natToChars (n : ℕ) : charsToNat (natToChars n) = n := by
  unfold charsToNat natToChars
  split
  · next h =>
    subst h
    decide
  · rw [← List.map_reverse, List.reverse_reverse, List.map_map]
    have hmap : (Nat.digits 10 n).map (charToDigit ∘ Nat.digitChar)
        = (Nat.digits 10 n).map id :=
      List.map_congr_left (fun d hd =>
        charToDigit_digitChar (Nat.digits_lt_base (by norm_num) hd))
    rw [hmap, List.map_id, Nat.ofDigits_digits]

theorem charsToNum_natToChars (n : ℕ) : charsToNum (natToChars n) = n := by
  rcases hs : natToChars n with _ | ⟨c, rest⟩
  · exact absurd hs (natToChars_ne_nil n)
  · have hc : c ≠ '-' :=
      (natToChars_digits (hs ▸ List.mem_cons_self c rest)).2
    simp only [charsToNum]
    rw [if_neg hc, ← hs, charsToNat_natToChars]

theorem splitOnUnderscore_no_sep (a : List Char) (ha : '_' ∉ a) :
    splitOnUnderscore a = [a] := by
  induction a with
  | nil => rfl
  | cons c a' ih =>
    have hc : c ≠ '_' := fun h => ha (h ▸ List.mem_cons_self c a')
    have ha' : '_' ∉ a' := fun h => ha (List.mem_cons_of_mem c h)
    rw [splitOnUnderscore, if_neg hc, ih ha']

theorem splitOnUnderscore_append (a s : List Char) (ha : '_' ∉ a) :
    splitOnUnderscore (a ++ '_' :: s) = a :: splitOnUnderscore s := by
  induction a with
  | nil =>
    rw [List.nil_append, splitOnUnderscore, if_pos rfl]
  | cons c a' ih =>
    have hc : c ≠ '_' := fun h => ha (h ▸ List.mem_cons_self c a')
    have ha' : '_' ∉ a' := fun h => ha (List.mem_cons_of_mem c h)
    rw [List.cons_append, splitOnUnderscore, if_neg hc, ih ha']

theorem intToChars_natCast (m : ℕ) : intToChars (m : ℤ) = natToChars m := by
  unfold intToChars
  rw [if_neg (by exact_mod_cast Int.not_lt.mpr (Int.natCast_nonneg m)),
    Int.natAbs_ofNat]

/-- Parsing a well-formed key yields the three channel values over 255. -/
theorem keyToColor_mkKey (r g b : ℕ) :
    keyToColor (mkKey r g b)
      = ⟨(r : ℚ) / 255, (g : ℚ) / 255, (b : ℚ) / 255⟩ := by
  unfold keyToColor mkKey
  rw [splitOnUnderscore_append _ _ (fun h => (natToChars_digits h).1 rfl),
    splitOnUnderscore_append _ _ (fun h => (natToChars_digits h).1 rfl),
    splitOnUnderscore_no_sep _ (fun h => (natToChars_digits h).1 rfl)]
  simp only [charsToNum_natToChars]

/-- **C6.** Keys and colors round-trip: a well-formed key (three 0–255
decimal fields joined by `'_'`) is reproduced exactly by
`colorToKey ∘ keyToColor`, and `keyToColor ∘ colorToKey` reproduces each
channel of a `[0,1]` color within `1/255`. -/
theorem colorKey_roundTrip :
    (∀ r g b : ℕ, r ≤ 255 → g ≤ 255 → b ≤ 255 →
      colorToKey (keyToColor (mkKey r g b)) = mkKey r g b)
    ∧ (∀ c : Color, 0 ≤ c.r → c.r ≤ 1 → 0 ≤ c.g → c.g ≤ 1 →
        0 ≤ c.b → c.b ≤ 1 →
        |(keyToColor (colorToKey c)).r - c.r| ≤ 1 / 255
        ∧ |(keyToColor (colorToKey c)).g - c.g| ≤ 1 / 255
        ∧ |(keyToColor (colorToKey c)).b - c.b| ≤ 1 / 255) := by
  have hch : ∀ m : ℕ, jsRound ((m : ℚ) / 255 * 255) = m := by
    intro m
    rw [jsRound_eq]
    have h : ((m : ℚ) / 255 * 255) = ((m : ℕ) : ℚ) := by
      field_simp
    rw [h, round_natCast]
  constructor
  · intro r g b _ _ _
    rw [keyToColor_mkKey]
    unfold colorToKey mkKey
    dsimp only
    rw [hch r, hch g, hch b, intToChars_natCast, intToChars_natCast,
      intToChars_natCast]
  · intro c hr0 hr1 hg0 hg1 hb0 hb1
    have hkey : keyToColor (colorToKey c)
        = ⟨((jsRound (c.r * 255)).natAbs : ℚ) / 255,
           ((jsRound (c.g * 255)).natAbs : ℚ) / 255,
           ((jsRound (c.b * 255)).natAbs : ℚ) / 255⟩ := by
      unfold colorToKey intToChars
      rw [if_neg (Int.not_lt.mpr (jsRound_channel_byte hr0 hr1).2.1),
        if_neg (Int.not_lt.mpr (jsRound_channel_byte hg0 hg1).2.1),
        if_neg (Int.not_lt.mpr (jsRound_channel_byte hb0 hb1).2.1)]
      unfold keyToColor
      rw [splitOnUnderscore_append _ _ (fun h => (natToChars_digits h).1 rfl),
        splitOnUnderscore_append _ _ (fun h => (natToChars_digits h).1 rfl),
        splitOnUnderscore_no_sep _ (fun h => (natToChars_digits h).1 rfl)]
      simp only [charsToNum_natToChars]
    rw [hkey]
    have hbound : ∀ q : ℚ, 0 ≤ q → q ≤ 1 →
        |((jsRound (q * 255)).natAbs : ℚ) / 255 - q| ≤ 1 / 255 := by
      intro q h0 h1
      have hnn := (jsRound_channel_byte h0 h1).2.1
      have habs : ((jsRound (q * 255)).natAbs : ℤ) = jsRound (q * 255) :=
        Int.natAbs_of_nonneg hnn
      have hcast : ((jsRound (q * 255)).natAbs : ℚ)
          = ((jsRound (q * 255) : ℤ) : ℚ) := by
        rw [Int.cast_natAbs]
        exact congrArg (fun z : ℤ => (z : ℚ)) (abs_of_nonneg hnn)
      rw [hcast, jsRound_eq]
      have hround : |q * 255 - ((round (q * 255) : ℤ) : ℚ)| ≤ 1 / 2 :=
        abs_sub_round (q * 255)
      rw [abs_sub_comm] at hround
      have heq : ((round (q * 255) : ℤ) : ℚ) / 255 - q
          = (((round (q * 255) : ℤ) : ℚ) - q * 255) / 255 := by
        ring
      rw [heq, abs_div]
      rw [show |(255 : ℚ)| = 255 from by norm_num]
      rw [div_le_div_iff₀ (by norm_num) (by norm_num)]
      nlinarith [hround]
    exact ⟨hbound c.r hr0 hr1, hbound c.g hg0 hg1, hbound c.b hb0 hb1⟩

/-- **C1 witness.** On a uniformly red 1×1 raster, filling at `(0,0)` with
`(0,255,0)` makes the texel `(0,255,0,255)`. -/
theorem floodFill_exact_region_witness :
    floodFill 1 1 (fun _ => ⟨255, 0, 0, 255⟩) 0 0 ⟨0, 1, 0⟩ (0, 0)
      = ⟨0, 255, 0, 255⟩ :=
  (floodFill_exact_region 1 1 (fun _ => ⟨255, 0, 0, 255⟩) 0 0 ⟨0, 1, 0⟩
      (by simp [inBoundsZ, jsFloor_eq])).2.2
    (fun _ _ => rfl) rfl (0, 0) (by simp [inBoundsZ])

/-- **C7 witness.** A second identical fill of a 1×1 red raster with
`(0,255,0)` changes nothing. -/
theorem floodFill_idempotent_witness :
    floodFill 1 1 (floodFill 1 1 (fun _ => ⟨255, 0, 0, 255⟩) 0 0 ⟨0, 1, 0⟩)
        0 0 ⟨0, 1, 0⟩
      = floodFill 1 1 (fun _ => ⟨255, 0, 0, 255⟩) 0 0 ⟨0, 1, 0⟩ :=
  floodFill_idempotent 1 1 (fun _ => ⟨255, 0, 0, 255⟩) 0 0 ⟨0, 1, 0⟩
    (by norm_num)


theorem getKey_comm (a b : String) : getKey a b = getKey b a := by
  unfold getKey
  by_cases h : a ≤ b
  · by_cases h' : b ≤ a
    · have hab : a = b := le_antisymm h h'
      subst hab
      rfl
    · rw [if_pos h, if_neg h']
  · have h' : b ≤ a := le_of_not_le h
    rw [if_neg h, if_pos h']

theorem getRelation_comm (st : DiplomacyState) (a b : String) :
    getRelation st a b = getRelation st b a := by
  unfold getRelation
  by_cases h : a = b
  · simp [h]
  · simp [h, Ne.symm h, getKey_comm a b]

/-- Looking up a pair right after `setRelation` on that pair. -/
theorem getRelation_setRelation_same (st : DiplomacyState) (a b : String)
    (s : DiplomaticStatus) (hab : a ≠ b) :
    getRelation (setRelation st a b s) a b = s := by
  unfold getRelation setRelation
  simp [hab, mapGet]

/-- `setRelation` on `(a, b)` leaves every pair with a different canonical
key (and every diagonal pair) unchanged. -/
theorem getRelation_setRelation_other (st : DiplomacyState) (a b x y : String)
    (s : DiplomaticStatus) (hkey : getKey x y ≠ getKey a b) :
    getRelation (setRelation st a b s) x y = getRelation st x y := by
  unfold getRelation setRelation
  by_cases hab : a ≠ b
  · by_cases hxy : x = y
    · simp [hxy, hab]
    · simp [hab, hxy, mapGet, Ne.symm hkey]
  · simp [hab]

/-- Pairs with equal canonical keys read the same relation. -/
theorem getRelation_congr_key (st : DiplomacyState) (a b x y : String)
    (hab : a ≠ b) (hxy : x ≠ y) (hkey : getKey x y = getKey a b) :
    getRelation st x y = getRelation st a b := by
  unfold getRelation
  simp [hab, hxy, hkey]

/-- The status flip of `toggleRelation` is an involution. -/
theorem statusFlip_statusFlip (s : DiplomaticStatus) :
    (if (if s = .peace then DiplomaticStatus.war else .peace) = .peace
      then DiplomaticStatus.war else .peace) = s := by
  cases s <;> rfl

/-- **C5.** For all color keys `a`, `b` and every diplomacy state:
`getRelation` is symmetric; it is at-peace whenever nothing is stored for the
pair's canonical key or `a = b`; and two successive `toggleRelation (a, b)`
calls restore the relation of every pair `(x, y)` to its prior value. -/
theorem getRelation_symm_default_toggle_toggle :
    ∀ (st : DiplomacyState) (a b x y : String),
      getRelation st a b = getRelation st b a
      ∧ ((mapGet st.relations (getKey a b) = none ∨ a = b) →
          getRelation st a b = .peace)
      ∧ getRelation (toggleRelation (toggleRelation st a b).1 a b).1 x y
          = getRelation st x y := by
  intro st a b x y
  refine ⟨getRelation_comm st a b, ?_, ?_⟩
  · rintro (hnone | heq)
    · unfold getRelation
      by_cases h : a = b
      · simp [h]
      · simp [h, hnone]
    · simp [getRelation, heq]
  · by_cases hab : a = b
    · -- on the diagonal `setRelation` stores nothing, so both toggles are
      -- identities on the state
      simp [toggleRelation, setRelation, hab]
    · set s1 : DiplomaticStatus :=
        if getRelation st a b = .peace then .war else .peace with hs1
      have h1 : (toggleRelation st a b).1 = setRelation st a b s1 := rfl
      have hrel1 : getRelation (toggleRelation st a b).1 a b = s1 := by
        rw [h1]
        exact getRelation_setRelation_same st a b s1 hab
      have h2 : (toggleRelation (toggleRelation st a b).1 a b).1
          = setRelation (toggleRelation st a b).1 a b
              (if getRelation (toggleRelation st a b).1 a b = .peace
                then .war else .peace) := rfl
      rw [h2, hrel1]
      have hflip : (if s1 = .peace then DiplomaticStatus.war else .peace)
          = getRelation st a b := by
        rw [hs1]
        exact statusFlip_statusFlip _
      rw [hflip]
      by_cases hxy : x = y
    -- diagonal pairs always read peace
      · subst hxy
        simp [getRelation]
      · by_cases hkey : getKey x y = getKey a b
        · rw [getRelation_congr_key _ a b x y hab hxy hkey,
            getRelation_setRelation_same _ a b _ hab,
            getRelation_congr_key st a b x y hab hxy hkey]
        · rw [getRelation_setRelation_other _ a b x y _ hkey, h1,
            getRelation_setRelation_other _ a b x y _ hkey]

/-- **C4 counterexample.** With `n = 1`, `Σy = 1` the fit returns `(0, 0)`,
not `(0, mean y) = (0, 1)` as the claim's `n < 2` branch states. -/
theorem leastSquaresFit_one_point_not_mean :
    leastSquaresFit 1 0 0 1 0 = (0, 0) ∧ (0 : ℚ) ≠ 1 / 1 := by
  constructor
  · norm_num [leastSquaresFit]
  · norm_num

/-- **C4 (amended).** The `n < 2` branch returns `k = 0, m = 0`; the
near-zero-denominator branch (`n ≥ 2`, `|nΣx² − (Σx)²| < 1e-10`) returns
`k = 0, m = Σy/n = mean y`; otherwise the closed-form pair is returned and
satisfies both least-squares normal equations of the accumulated sums. -/
theorem leastSquaresFit_spec (n sumXY sumX sumY sumXSqr : ℚ) :
    (n < 2 → leastSquaresFit n sumXY sumX sumY sumXSqr = (0, 0))
    ∧ (¬ n < 2 → |n * sumXSqr - sumX * sumX| < 1 / 10 ^ 10 →
        leastSquaresFit n sumXY sumX sumY sumXSqr = (0, sumY / n))
    ∧ (¬ n < 2 → ¬ |n * sumXSqr - sumX * sumX| < 1 / 10 ^ 10 →
        leastSquaresFit n sumXY sumX sumY sumXSqr
            = ((n * sumXY - sumX * sumY) / (n * sumXSqr - sumX * sumX),
               (sumY - (n * sumXY - sumX * sumY)
                  / (n * sumXSqr - sumX * sumX) * sumX) / n)
          ∧ (leastSquaresFit n sumXY sumX sumY sumXSqr).1 * sumXSqr
              + (leastSquaresFit n sumXY sumX sumY sumXSqr).2 * sumX = sumXY
          ∧ (leastSquaresFit n sumXY sumX sumY sumXSqr).1 * sumX
              + (leastSquaresFit n sumXY sumX sumY sumXSqr).2 * n = sumY) := by
  refine ⟨fun h => by rw [leastSquaresFit, if_pos h], fun h hd => by
    simp only [leastSquaresFit]
    rw [if_neg h, if_pos hd], fun h hd => ?_⟩
  have hval : leastSquaresFit n sumXY sumX sumY sumXSqr
      = ((n * sumXY - sumX * sumY) / (n * sumXSqr - sumX * sumX),
         (sumY - (n * sumXY - sumX * sumY)
            / (n * sumXSqr - sumX * sumX) * sumX) / n) := by
    simp only [leastSquaresFit]
    rw [if_neg h, if_neg hd]
  have hn : n ≠ 0 := by
    intro h0
    exact h (by rw [h0]; norm_num)
  have hdenom : n * sumXSqr - sumX * sumX ≠ 0 := by
    intro h0
    exact hd (by rw [h0]; norm_num)
  refine ⟨hval, ?_, ?_⟩
  · rw [hval]
    field_simp
    ring
  · rw [hval]
    field_simp
    ring

theorem toByte_inrange {i : ℤ} (h0 : 0 ≤ i) (h1 : i ≤ 255) :
    ((toByte i : ℕ) : ℤ) = i := by
  rw [toByte, Int.emod_eq_of_lt h0 (by omega)]
  exact Int.toNat_of_nonneg h0

theorem foldl_preserves {α σ : Type} {f : σ → α → σ} {P : σ → Prop}
    (hf : ∀ s a, P s → P (f s a)) :
    ∀ (l : List α) (s : σ), P s → P (l.foldl f s) := by
  intro l
  induction l with
  | nil => exact fun s hs => hs
  | cons a l ih => exact fun s hs => ih _ (hf s a hs)

/-- One candidate texel preserves the conquest invariant (for an in-range
attacker color, whose byte store is exact). -/
theorem conquestTexel_inv {W H radius : ℕ} {pr pg pb : ℤ}
    {diplomacy : DiplomacyState} {countryId : String}
    (hpr0 : 0 ≤ pr) (hpr1 : pr ≤ 255) (hpg0 : 0 ≤ pg) (hpg1 : pg ≤ 255)
    (hpb0 : 0 ≤ pb) (hpb1 : pb ≤ 255) (d0 : Raster) (pos : ℚ × ℚ)
    (dx dy : ℤ) (st : Raster × ℕ)
    (hinv : ConquestInv W H pr pg pb diplomacy countryId d0 st) :
    ConquestInv W H pr pg pb diplomacy countryId d0
      (conquestTexel W H radius pr pg pb diplomacy countryId pos dx dy st) := by
  unfold conquestTexel
  dsimp only
  by_cases g0 : dx * dx + dy * dy > (radius : ℤ) * radius
  · rw [if_pos g0]
    exact hinv
  rw [if_neg g0]
  by_cases g1 : ¬ inBoundsZ W H (jsFloor (pos.1 + (dx : ℚ)), jsFloor (pos.2 + (dy : ℚ)))
  · rw [if_pos g1]
    exact hinv
  rw [if_neg g1]
  have hbnd : inBoundsZ W H (jsFloor (pos.1 + (dx : ℚ)), jsFloor (pos.2 + (dy : ℚ))) :=
    not_not.mp g1
  by_cases g2 : ((st.1 (jsFloor (pos.1 + (dx : ℚ)), jsFloor (pos.2 + (dy : ℚ)))).r : ℤ) = pr
      ∧ ((st.1 (jsFloor (pos.1 + (dx : ℚ)), jsFloor (pos.2 + (dy : ℚ)))).g : ℤ) = pg
      ∧ ((st.1 (jsFloor (pos.1 + (dx : ℚ)), jsFloor (pos.2 + (dy : ℚ)))).b : ℤ) = pb
  · rw [if_pos g2]
    exact hinv
  rw [if_neg g2]
  by_cases g3 : (st.1 (jsFloor (pos.1 + (dx : ℚ)), jsFloor (pos.2 + (dy : ℚ)))).r > 240
      ∧ (st.1 (jsFloor (pos.1 + (dx : ℚ)), jsFloor (pos.2 + (dy : ℚ)))).g > 240
      ∧ (st.1 (jsFloor (pos.1 + (dx : ℚ)), jsFloor (pos.2 + (dy : ℚ)))).b > 240
  · rw [if_pos g3]
    exact hinv
  rw [if_neg g3]
  by_cases g4 : (st.1 (jsFloor (pos.1 + (dx : ℚ)), jsFloor (pos.2 + (dy : ℚ)))).r < 15
      ∧ (st.1 (jsFloor (pos.1 + (dx : ℚ)), jsFloor (pos.2 + (dy : ℚ)))).g < 15
      ∧ (st.1 (jsFloor (pos.1 + (dx : ℚ)), jsFloor (pos.2 + (dy : ℚ)))).b < 15
  · rw [if_pos g4]
    exact hinv
  rw [if_neg g4]
  by_cases g5 : ¬ isAtWar diplomacy countryId
      (colorKeyStr (st.1 (jsFloor (pos.1 + (dx : ℚ)), jsFloor (pos.2 + (dy : ℚ)))).r
        (st.1 (jsFloor (pos.1 + (dx : ℚ)), jsFloor (pos.2 + (dy : ℚ)))).g
        (st.1 (jsFloor (pos.1 + (dx : ℚ)), jsFloor (pos.2 + (dy : ℚ)))).b)
  · rw [if_pos g5]
    exact hinv
  rw [if_neg g5]
  -- the paint branch
  by_cases hch : st.1 (jsFloor (pos.1 + (dx : ℚ)), jsFloor (pos.2 + (dy : ℚ)))
      = d0 (jsFloor (pos.1 + (dx : ℚ)), jsFloor (pos.2 + (dy : ℚ)))
  · -- first paint of this texel
    have hconq : conquerable pr pg pb diplomacy countryId
        (d0 (jsFloor (pos.1 + (dx : ℚ)), jsFloor (pos.2 + (dy : ℚ)))) := by
      rw [← hch]
      exact ⟨g2, g3, g4, eq_true_of_ne_false (by
        intro hfalse
        exact g5 (by rw [hfalse]; exact Bool.false_ne_true))⟩
    have hfillne : fillTexel pr pg pb
        ≠ d0 (jsFloor (pos.1 + (dx : ℚ)), jsFloor (pos.2 + (dy : ℚ))) := by
      intro heq
      refine hconq.1 ⟨?_, ?_, ?_⟩ <;> rw [← heq] <;> simp only [fillTexel]
      · exact toByte_inrange hpr0 hpr1
      · exact toByte_inrange hpg0 hpg1
      · exact toByte_inrange hpb0 hpb1
    constructor
    · intro p hp
      by_cases hpc : p = (jsFloor (pos.1 + (dx : ℚ)), jsFloor (pos.2 + (dy : ℚ)))
      · subst hpc
        refine ⟨hbnd, ?_, hconq⟩
        show setTexel _ _ _ _ = _
        rw [setTexel, if_pos rfl]
      · have hsame : setTexel st.1
            (jsFloor (pos.1 + (dx : ℚ)), jsFloor (pos.2 + (dy : ℚ)))
            (fillTexel pr pg pb) p = st.1 p := by
          rw [setTexel, if_neg hpc]
        show inBoundsZ W H p ∧ setTexel _ _ _ p = _ ∧ _
        rw [hsame]
        have hp' : st.1 p ≠ d0 p := by
          rw [← hsame]
          exact hp
        exact hinv.1 p hp'
    · have hset : (gridZ W H).filter
          (fun c => setTexel st.1
            (jsFloor (pos.1 + (dx : ℚ)), jsFloor (pos.2 + (dy : ℚ)))
            (fillTexel pr pg pb) c ≠ d0 c)
          = insert (jsFloor (pos.1 + (dx : ℚ)), jsFloor (pos.2 + (dy : ℚ)))
              ((gridZ W H).filter (fun c => st.1 c ≠ d0 c)) := by
        ext p
        rw [Finset.mem_filter, Finset.mem_insert, Finset.mem_filter]
        by_cases hpc : p = (jsFloor (pos.1 + (dx : ℚ)), jsFloor (pos.2 + (dy : ℚ)))
        · subst hpc
          simp only [setTexel, if_pos rfl]
          simp [mem_gridZ.mpr hbnd, hfillne]
        · simp only [setTexel, if_neg hpc]
          constructor
          · rintro ⟨hg, hne⟩
            exact Or.inr ⟨hg, hne⟩
          · rintro (h | ⟨hg, hne⟩)
            · exact absurd h hpc
            · exact ⟨hg, hne⟩
      have hnotmem : (jsFloor (pos.1 + (dx : ℚ)), jsFloor (pos.2 + (dy : ℚ)))
          ∉ (gridZ W H).filter (fun c => st.1 c ≠ d0 c) := by
        rw [Finset.mem_filter]
        rintro ⟨-, hne⟩
        exact hne hch
      show st.2 + 1 = _
      rw [hset, Finset.card_insert_of_not_mem hnotmem, hinv.2]
  · -- a texel already painted in this call matches the attacker's color,
    -- so the first guard would have fired: contradiction
    exfalso
    obtain ⟨-, hfill, -⟩ := hinv.1 _ hch
    refine g2 ?_
    rw [hfill]
    simp only [fillTexel]
    exact ⟨toByte_inrange hpr0 hpr1, toByte_inrange hpg0 hpg1,
      toByte_inrange hpb0 hpb1⟩

/-- The whole path walk preserves the conquest invariant. -/
theorem conquestAlongPath_inv (pixelData : Raster) (W H : ℕ)
    (path : List (ℚ × ℚ)) (color : Color) (radius : ℕ)
    (diplomacy : DiplomacyState) (countryId : String)
    (h01 : 0 ≤ color.r ∧ color.r ≤ 1 ∧ 0 ≤ color.g ∧ color.g ≤ 1
      ∧ 0 ≤ color.b ∧ color.b ≤ 1) :
    ConquestInv W H (jsRound (color.r * 255)) (jsRound (color.g * 255))
      (jsRound (color.b * 255)) diplomacy countryId pixelData
      ((conquestAlongPath pixelData W H path color radius diplomacy
          countryId).1,
        (conquestAlongPath pixelData W H path color radius diplomacy
          countryId).2.pixelsPainted) := by
  obtain ⟨hr0, hr1, hg0, hg1, hb0, hb1⟩ := h01
  obtain ⟨-, hprl, hprh⟩ := jsRound_channel_byte hr0 hr1
  obtain ⟨-, hpgl, hpgh⟩ := jsRound_channel_byte hg0 hg1
  obtain ⟨-, hpbl, hpbh⟩ := jsRound_channel_byte hb0 hb1
  show ConquestInv W H _ _ _ diplomacy countryId pixelData
    ((path.zip path.tail).foldl _ (pixelData, 0))
  refine foldl_preserves (fun st pair hst => ?_) _ _ ⟨fun c hc => absurd rfl hc, by simp⟩
  show ConquestInv W H _ _ _ _ _ _ (conquestSegment _ _ _ _ _ _ _ _ _ _ _)
  unfold conquestSegment
  dsimp only
  refine foldl_preserves (fun st1 t hst1 => ?_) _ _ hst
  show ConquestInv W H _ _ _ _ _ _ (paintDisk _ _ _ _ _ _ _ _ _ _)
  unfold paintDisk
  refine foldl_preserves (fun st2 dy hst2 => ?_) _ _ hst1
  refine foldl_preserves (fun st3 dx hst3 => ?_) _ _ hst2
  exact conquestTexel_inv hprl hprh hpgl hpgh hpbl hpbh _ _ _ _ _ hst3

/-- **C10.** `pixelsPainted` counts exactly the texels whose stored value
changed between entry and return (each texel is painted at most once);
every changed texel ends the call holding the attacker's color with alpha
255; and `needsUpdate` is true exactly when `pixelsPainted > 0`. -/
theorem conquestAlongPath_counts (pixelData : Raster) (W H : ℕ)
    (path : List (ℚ × ℚ)) (color : Color) (radius : ℕ)
    (diplomacy : DiplomacyState) (countryId : String)
    (h01 : 0 ≤ color.r ∧ color.r ≤ 1 ∧ 0 ≤ color.g ∧ color.g ≤ 1
      ∧ 0 ≤ color.b ∧ color.b ≤ 1) :
    (conquestAlongPath pixelData W H path color radius diplomacy
        countryId).2.pixelsPainted
      = ((gridZ W H).filter
          (fun c => (conquestAlongPath pixelData W H path color radius
            diplomacy countryId).1 c ≠ pixelData c)).card
    ∧ (∀ c, (conquestAlongPath pixelData W H path color radius diplomacy
          countryId).1 c ≠ pixelData c →
        (conquestAlongPath pixelData W H path color radius diplomacy
          countryId).1 c
          = fillTexel (jsRound (color.r * 255)) (jsRound (color.g * 255))
              (jsRound (color.b * 255)))
    ∧ ((conquestAlongPath pixelData W H path color radius diplomacy
          countryId).2.needsUpdate = true
        ↔ 0 < (conquestAlongPath pixelData W H path color radius diplomacy
            countryId).2.pixelsPainted) := by
  obtain ⟨hsafe, hcount⟩ := conquestAlongPath_inv pixelData W H path color
    radius diplomacy countryId h01
  refine ⟨hcount, fun c hc => (hsafe c hc).2.1, ?_⟩
  have hneed : (conquestAlongPath pixelData W H path color radius diplomacy
      countryId).2.needsUpdate
      = decide (0 < (conquestAlongPath pixelData W H path color radius
        diplomacy countryId).2.pixelsPainted) := rfl
  rw [hneed]
  exact decide_eq_true_iff

/-- The candidate-texel step never decreases the paint counter. -/
theorem conquestTexel_counter_le (W H radius : ℕ) (pr pg pb : ℤ)
    (diplomacy : DiplomacyState) (countryId : String) (pos : ℚ × ℚ)
    (dx dy : ℤ) (st : Raster × ℕ) :
    st.2 ≤ (conquestTexel W H radius pr pg pb diplomacy countryId pos
      dx dy st).2 := by
  unfold conquestTexel
  dsimp only
  split_ifs <;> simp

theorem offsetRange_zero : offsetRange 0 = [0] := by
  decide

/-- With radius 0, a step at position `pos` whose center texel is in bounds
and conquerable paints it: the counter increments. -/
theorem conquestTexel_paints {W H : ℕ} {pr pg pb : ℤ}
    {diplomacy : DiplomacyState} {countryId : String} (pos : ℚ × ℚ)
    (st : Raster × ℕ)
    (hbnd : inBoundsZ W H (jsFloor pos.1, jsFloor pos.2))
    (hcq : conquerable pr pg pb diplomacy countryId
      (st.1 (jsFloor pos.1, jsFloor pos.2))) :
    (conquestTexel W H 0 pr pg pb diplomacy countryId pos 0 0 st).2
      = st.2 + 1 := by
  unfold conquestTexel
  dsimp only
  rw [if_neg (by norm_num)]
  have h1 : (pos.1 + ((0 : ℤ) : ℚ)) = pos.1 := by norm_num
  have h2 : (pos.2 + ((0 : ℤ) : ℚ)) = pos.2 := by norm_num
  rw [h1, h2, if_neg (not_not_intro hbnd), if_neg hcq.1, if_neg hcq.2.1,
    if_neg hcq.2.2.1, if_neg (not_not_intro hcq.2.2.2)]

/-- With radius 0 the disk is the single center texel. -/
theorem paintDisk_paints {W H : ℕ} {pr pg pb : ℤ}
    {diplomacy : DiplomacyState} {countryId : String} (pos : ℚ × ℚ)
    (st : Raster × ℕ)
    (hbnd : inBoundsZ W H (jsFloor pos.1, jsFloor pos.2))
    (hcq : conquerable pr pg pb diplomacy countryId
      (st.1 (jsFloor pos.1, jsFloor pos.2))) :
    (paintDisk W H 0 pr pg pb diplomacy countryId pos st).2 = st.2 + 1 := by
  unfold paintDisk
  rw [offsetRange_zero]
  simp only [List.foldl_cons, List.foldl_nil]
  exact conquestTexel_paints pos st hbnd hcq

/-- A fold whose step never decreases the counter never decreases it. -/
theorem foldl_counter_le {α : Type} (f : Raster × ℕ → α → Raster × ℕ)
    (hf : ∀ s a, s.2 ≤ (f s a).2) :
    ∀ (l : List α) (s : Raster × ℕ), s.2 ≤ (l.foldl f s).2 := by
  intro l
  induction l with
  | nil => exact fun s => le_refl _
  | cons a l ih => exact fun s => le_trans (hf s a) (ih (f s a))

/-- The disk never decreases the paint counter. -/
theorem paintDisk_counter_le (W H radius : ℕ) (pr pg pb : ℤ)
    (diplomacy : DiplomacyState) (countryId : String) (pos : ℚ × ℚ)
    (st : Raster × ℕ) :
    st.2 ≤ (paintDisk W H radius pr pg pb diplomacy countryId pos st).2 := by
  unfold paintDisk
  refine foldl_counter_le _ ?_ _ st
  intro s1 dy
  refine foldl_counter_le _ ?_ _ s1
  intro s2 dx
  exact conquestTexel_counter_le W H radius pr pg pb diplomacy countryId pos
    dx dy s2

/-- A whole segment never decreases the paint counter. -/
theorem conquestSegment_counter_le (W H radius : ℕ) (pr pg pb : ℤ)
    (diplomacy : DiplomacyState) (countryId : String) (sp ep : ℚ × ℚ)
    (st : Raster × ℕ) :
    st.2 ≤ (conquestSegment W H radius pr pg pb diplomacy countryId
      sp ep st).2 := by
  unfold conquestSegment
  dsimp only
  refine foldl_counter_le _ ?_ _ st
  intro s1 t
  exact paintDisk_counter_le W H radius pr pg pb diplomacy countryId _ s1

/-- A segment whose start waypoint stands (radius 0) on an in-bounds,
conquerable texel of the current buffer paints at least one texel. -/
theorem conquestSegment_progress (W H : ℕ) (pr pg pb : ℤ)
    (diplomacy : DiplomacyState) (countryId : String) (sp ep : ℚ × ℚ)
    (st : Raster × ℕ)
    (hbnd : inBoundsZ W H (jsFloor (sp.1 * W), jsFloor ((1 - sp.2) * H)))
    (hcq : conquerable pr pg pb diplomacy countryId
      (st.1 (jsFloor (sp.1 * W), jsFloor ((1 - sp.2) * H)))) :
    0 < (conquestSegment W H 0 pr pg pb diplomacy countryId sp ep st).2 := by
  unfold conquestSegment
  dsimp only
  rw [List.range_succ_eq_map, List.foldl_cons]
  have key : ∀ pos : ℚ × ℚ, pos.1 = sp.1 * (W : ℚ) →
      pos.2 = (1 - sp.2) * (H : ℚ) →
      0 < (paintDisk W H 0 pr pg pb diplomacy countryId pos st).2 := by
    intro pos hp1 hp2
    rw [paintDisk_paints pos st (by rw [hp1, hp2]; exact hbnd)
      (by rw [hp1, hp2]; exact hcq)]
    omega
  refine lt_of_lt_of_le (key _ (by norm_num) (by norm_num))
    (foldl_counter_le _ ?_ _ _)
  intro s1 t
  exact paintDisk_counter_le W H 0 pr pg pb diplomacy countryId _ s1

/-- A path whose first waypoint stands (radius 0) on an in-bounds texel
that is conquerable in the entry snapshot paints at least one texel. -/
theorem conquest_progress (pixelData : Raster) (W H : ℕ) (sp p2 : ℚ × ℚ)
    (rest : List (ℚ × ℚ)) (color : Color) (diplomacy : DiplomacyState)
    (countryId : String)
    (hbnd : inBoundsZ W H (jsFloor (sp.1 * W), jsFloor ((1 - sp.2) * H)))
    (hcq : conquerable (jsRound (color.r * 255)) (jsRound (color.g * 255))
      (jsRound (color.b * 255)) diplomacy countryId
      (pixelData (jsFloor (sp.1 * W), jsFloor ((1 - sp.2) * H)))) :
    0 < (conquestAlongPath pixelData W H (sp :: p2 :: rest) color 0
      diplomacy countryId).2.pixelsPainted := by
  unfold conquestAlongPath
  dsimp only
  rw [List.tail_cons, List.zip_cons_cons, List.foldl_cons]
  refine lt_of_lt_of_le
    (conquestSegment_progress W H _ _ _ diplomacy countryId sp p2
      (pixelData, 0) hbnd hcq)
    (foldl_counter_le _ ?_ _ _)
  intro s pair
  exact conquestSegment_counter_le W H 0 _ _ _ diplomacy countryId _ _ s

/-- An empty diplomacy state is at peace with everyone. -/
theorem isAtWar_createDiplomacyState (a b : String) :
    isAtWar createDiplomacyState a b = false := by
  unfold isAtWar getRelation createDiplomacyState mapGet
  split_ifs <;> rfl

/-- When the attacker is at war with no texel color on the raster, the
conquest walk changes nothing and paints no texel. -/
theorem conquestAlongPath_peace (pixelData : Raster) (W H : ℕ)
    (path : List (ℚ × ℚ)) (color : Color) (radius : ℕ)
    (diplomacy : DiplomacyState) (countryId : String)
    (h01 : 0 ≤ color.r ∧ color.r ≤ 1 ∧ 0 ≤ color.g ∧ color.g ≤ 1
      ∧ 0 ≤ color.b ∧ color.b ≤ 1)
    (hpeace : ∀ c, inBoundsZ W H c →
      isAtWar diplomacy countryId
        (colorKeyStr (pixelData c).r (pixelData c).g (pixelData c).b)
        = false) :
    (∀ c, (conquestAlongPath pixelData W H path color radius diplomacy
      countryId).1 c = pixelData c)
    ∧ (conquestAlongPath pixelData W H path color radius diplomacy
        countryId).2.pixelsPainted = 0 := by
  obtain ⟨hsafe, hcount⟩ := conquestAlongPath_inv pixelData W H path color
    radius diplomacy countryId h01
  dsimp only at hsafe hcount
  have hall : ∀ c, (conquestAlongPath pixelData W H path color radius
      diplomacy countryId).1 c = pixelData c := by
    intro c
    by_contra hne
    obtain ⟨hbnd, -, hcq⟩ := hsafe c hne
    have hw := hcq.2.2.2
    rw [hpeace c hbnd] at hw
    exact Bool.false_ne_true hw
  refine ⟨hall, ?_⟩
  rw [hcount, Finset.filter_false_of_mem (fun c _ => not_not_intro (hall c)),
    Finset.card_empty]

theorem demo_colorKeyStr : colorKeyStr 100 100 100 = "100_100_100" := by
  decide

/-- After toggling the attacker/defender pair of the scenario to war, the
pair reads as at-war. -/
theorem demo_isAtWar :
    isAtWar (toggleRelation createDiplomacyState "200_0_0" "100_100_100").1
      "200_0_0" "100_100_100" = true := by
  have hne : ("200_0_0" : String) ≠ "100_100_100" := by decide
  have hrel : getRelation createDiplomacyState "200_0_0" "100_100_100"
      = .peace := by
    unfold getRelation createDiplomacyState mapGet
    rw [if_neg hne]
    rfl
  have hstate : (toggleRelation createDiplomacyState "200_0_0"
        "100_100_100").1
      = ⟨[(getKey "200_0_0" "100_100_100", .war)]⟩ := by
    show setRelation createDiplomacyState "200_0_0" "100_100_100"
        (if getRelation createDiplomacyState "200_0_0" "100_100_100"
          = .peace then .war else .peace) = _
    rw [hrel, if_pos rfl]
    unfold setRelation createDiplomacyState
    rw [if_pos hne]
  rw [hstate]
  unfold isAtWar getRelation mapGet
  rw [if_neg hne, if_pos rfl]
  rfl

theorem demo_jsRound_r : jsRound (demoColor.r * 255) = 200 := by
  rw [jsRound_eq]
  have h : (demoColor.r * 255 : ℚ) = ((200 : ℕ) : ℚ) := by
    unfold demoColor
    norm_num
  rw [h, round_natCast]
  norm_num

theorem demo_jsRound_g : jsRound (demoColor.g * 255) = 0 := by
  rw [jsRound_eq]
  have h : (demoColor.g * 255 : ℚ) = 0 := by
    unfold demoColor
    norm_num
  rw [h, round_zero]

theorem demo_jsRound_b : jsRound (demoColor.b * 255) = 0 := by
  rw [jsRound_eq]
  have h : (demoColor.b * 255 : ℚ) = 0 := by
    unfold demoColor
    norm_num
  rw [h, round_zero]

theorem demo_floor_x :
    jsFloor (((1 : ℚ)/4, (3 : ℚ)/4).1 * ((4 : ℕ) : ℚ)) = 1 := by
  rw [jsFloor_eq]
  have h : (((1 : ℚ)/4, (3 : ℚ)/4).1 * ((4 : ℕ) : ℚ)) = 1 := by norm_num
  rw [h, Int.floor_one]

theorem demo_floor_y :
    jsFloor ((1 - ((1 : ℚ)/4, (3 : ℚ)/4).2) * ((4 : ℕ) : ℚ)) = 1 := by
  rw [jsFloor_eq]
  have h : ((1 - ((1 : ℚ)/4, (3 : ℚ)/4).2) * ((4 : ℕ) : ℚ)) = 1 := by
    norm_num
  rw [h, Int.floor_one]

/-- **C3.** A texel is overwritten during `conquestAlongPath` only if all
four guards held on its original value: not already the attacker's color,
not near-white (all channels > 240), not near-black (all channels < 15),
and the attacker at war with the owner's color key.  Consequently a walk
over a raster whose every texel is at peace with the attacker changes
nothing, while the scenario walk (one enemy texel, attacker `(200,0,0)`)
paints 0 texels at peace and more than 0 after `toggleRelation` to war. -/
theorem conquestAlongPath_diplomacy_gate (pixelData : Raster) (W H : ℕ)
    (path : List (ℚ × ℚ)) (color : Color) (radius : ℕ)
    (diplomacy : DiplomacyState) (countryId : String)
    (h01 : 0 ≤ color.r ∧ color.r ≤ 1 ∧ 0 ≤ color.g ∧ color.g ≤ 1
      ∧ 0 ≤ color.b ∧ color.b ≤ 1) :
    (∀ c, (conquestAlongPath pixelData W H path color radius diplomacy
        countryId).1 c ≠ pixelData c →
      conquerable (jsRound (color.r * 255)) (jsRound (color.g * 255))
        (jsRound (color.b * 255)) diplomacy countryId (pixelData c))
    ∧ ((∀ c, inBoundsZ W H c →
          isAtWar diplomacy countryId
            (colorKeyStr (pixelData c).r (pixelData c).g (pixelData c).b)
            = false) →
        (∀ c, (conquestAlongPath pixelData W H path color radius diplomacy
          countryId).1 c = pixelData c)
        ∧ (conquestAlongPath pixelData W H path color radius diplomacy
            countryId).2.pixelsPainted = 0)
    ∧ ((conquestAlongPath demoRaster 4 4 demoPath demoColor 0
          createDiplomacyState "200_0_0").2.pixelsPainted = 0
        ∧ 0 < (conquestAlongPath demoRaster 4 4 demoPath demoColor 0
            (toggleRelation createDiplomacyState "200_0_0"
              "100_100_100").1 "200_0_0").2.pixelsPainted) := by
  have hdemo01 : 0 ≤ demoColor.r ∧ demoColor.r ≤ 1 ∧ 0 ≤ demoColor.g
      ∧ demoColor.g ≤ 1 ∧ 0 ≤ demoColor.b ∧ demoColor.b ≤ 1 := by
    unfold demoColor
    norm_num
  refine ⟨fun c hc =>
      ((conquestAlongPath_inv pixelData W H path color radius diplomacy
        countryId h01).1 c hc).2.2,
    fun hp => conquestAlongPath_peace pixelData W H path color radius
      diplomacy countryId h01 hp,
    (conquestAlongPath_peace demoRaster 4 4 demoPath demoColor 0
      createDiplomacyState "200_0_0" hdemo01
      (fun c _ => isAtWar_createDiplomacyState _ _)).2, ?_⟩
  have hcell : demoRaster
      (jsFloor (((1 : ℚ)/4, (3 : ℚ)/4).1 * ((4 : ℕ) : ℚ)),
        jsFloor ((1 - ((1 : ℚ)/4, (3 : ℚ)/4).2) * ((4 : ℕ) : ℚ)))
      = ⟨100, 100, 100, 255⟩ := by
    rw [demo_floor_x, demo_floor_y]
    unfold demoRaster
    rw [if_pos rfl]
  have hbnd : inBoundsZ 4 4
      (jsFloor (((1 : ℚ)/4, (3 : ℚ)/4).1 * ((4 : ℕ) : ℚ)),
        jsFloor ((1 - ((1 : ℚ)/4, (3 : ℚ)/4).2) * ((4 : ℕ) : ℚ))) := by
    rw [demo_floor_x, demo_floor_y]
    decide
  have hcq : conquerable (jsRound (demoColor.r * 255))
      (jsRound (demoColor.g * 255)) (jsRound (demoColor.b * 255))
      (toggleRelation createDiplomacyState "200_0_0" "100_100_100").1
      "200_0_0"
      (demoRaster
        (jsFloor (((1 : ℚ)/4, (3 : ℚ)/4).1 * ((4 : ℕ) : ℚ)),
          jsFloor ((1 - ((1 : ℚ)/4, (3 : ℚ)/4).2) * ((4 : ℕ) : ℚ)))) := by
    rw [hcell, demo_jsRound_r, demo_jsRound_g, demo_jsRound_b]
    refine ⟨by decide, by decide, by decide, ?_⟩
    rw [show (⟨100, 100, 100, 255⟩ : RGBA).r = 100 from rfl,
      show (⟨100, 100, 100, 255⟩ : RGBA).g = 100 from rfl,
      show (⟨100, 100, 100, 255⟩ : RGBA).b = 100 from rfl,
      demo_colorKeyStr]
    exact demo_isAtWar
  show 0 < (conquestAlongPath demoRaster 4 4
    (((1 : ℚ)/4, (3 : ℚ)/4) :: ((1 : ℚ)/4, (3 : ℚ)/4) :: []) demoColor 0
    (toggleRelation createDiplomacyState "200_0_0" "100_100_100").1
    "200_0_0").2.pixelsPainted
  exact conquest_progress demoRaster 4 4 ((1 : ℚ)/4, (3 : ℚ)/4)
    ((1 : ℚ)/4, (3 : ℚ)/4) [] demoColor
    (toggleRelation createDiplomacyState "200_0_0" "100_100_100").1
    "200_0_0" hbnd hcq

/-- **C10 witness.** The `needsUpdate` flag of the scenario walk agrees
with positivity of its paint counter. -/
theorem conquestAlongPath_counts_witness :
    (conquestAlongPath demoRaster 4 4 demoPath demoColor 0
        createDiplomacyState "200_0_0").2.needsUpdate = true
      ↔ 0 < (conquestAlongPath demoRaster 4 4 demoPath demoColor 0
          createDiplomacyState "200_0_0").2.pixelsPainted :=
  (conquestAlongPath_counts demoRaster 4 4 demoPath demoColor 0
    createDiplomacyState "200_0_0" (by unfold demoColor; norm_num)).2.2

/-- **C3 witness.** The concrete peace/war scenario: 0 texels painted at
peace, more than 0 after toggling to war. -/
theorem conquestAlongPath_diplomacy_gate_witness :
    (conquestAlongPath demoRaster 4 4 demoPath demoColor 0
        createDiplomacyState "200_0_0").2.pixelsPainted = 0
      ∧ 0 < (conquestAlongPath demoRaster 4 4 demoPath demoColor 0
          (toggleRelation createDiplomacyState "200_0_0" "100_100_100").1
          "200_0_0").2.pixelsPainted :=
  (conquestAlongPath_diplomacy_gate demoRaster 4 4 demoPath demoColor 0
    createDiplomacyState "200_0_0" (by unfold demoColor; norm_num)).2.2

/-- **C9.** A persisted record with an unsupported version is rejected:
`parseMapFile` returns `null`, `loadMap` returns before touching anything,
and raster, country labels, cities and the city-id counter are all exactly
as before the attempt. -/
theorem loadMap_rejects_unknown_version
    (applyImage : MapSaveData → EditorState → EditorState)
    (data : MapSaveData) (st : EditorState)
    (hver : data.version ≠ 1 ∧ data.version ≠ 2) :
    parseMapFile data = none
    ∧ loadMap applyImage data st = st
    ∧ (loadMap applyImage data st).raster = st.raster
    ∧ (loadMap applyImage data st).countryLabels = st.countryLabels
    ∧ (loadMap applyImage data st).cities = st.cities
    ∧ (loadMap applyImage data st).cityIdCounter = st.cityIdCounter := by
  have hload : loadMap applyImage data st = st := by
    unfold loadMap
    rw [if_pos hver]
  refine ⟨?_, hload, by rw [hload], by rw [hload], by rw [hload],
    by rw [hload]⟩
  unfold parseMapFile
  rw [if_pos hver]

/-- **C9 witness.** A version-3 record is rejected and a concrete state
survives unchanged. -/
theorem loadMap_rejects_unknown_version_witness :
    parseMapFile ⟨3, 0, 0, "", [], [], 0⟩ = none
    ∧ loadMap (fun _ st => st) ⟨3, 0, 0, "", [], [], 0⟩
        ⟨fun _ => ⟨255, 255, 255, 255⟩, [], [], 0⟩
      = ⟨fun _ => ⟨255, 255, 255, 255⟩, [], [], 0⟩
    ∧ (loadMap (fun _ st => st) ⟨3, 0, 0, "", [], [], 0⟩
        ⟨fun _ => ⟨255, 255, 255, 255⟩, [], [], 0⟩).raster
      = (⟨fun _ => ⟨255, 255, 255, 255⟩, [], [], 0⟩ : EditorState).raster
    ∧ (loadMap (fun _ st => st) ⟨3, 0, 0, "", [], [], 0⟩
        ⟨fun _ => ⟨255, 255, 255, 255⟩, [], [], 0⟩).countryLabels
      = (⟨fun _ => ⟨255, 255, 255, 255⟩, [], [],
          0⟩ : EditorState).countryLabels
    ∧ (loadMap (fun _ st => st) ⟨3, 0, 0, "", [], [], 0⟩
        ⟨fun _ => ⟨255, 255, 255, 255⟩, [], [], 0⟩).cities
      = (⟨fun _ => ⟨255, 255, 255, 255⟩, [], [], 0⟩ : EditorState).cities
    ∧ (loadMap (fun _ st => st) ⟨3, 0, 0, "", [], [], 0⟩
        ⟨fun _ => ⟨255, 255, 255, 255⟩, [], [], 0⟩).cityIdCounter
      = (⟨fun _ => ⟨255, 255, 255, 255⟩, [], [],
          0⟩ : EditorState).cityIdCounter :=
  loadMap_rejects_unknown_version (fun _ st => st) ⟨3, 0, 0, "", [], [], 0⟩
    ⟨fun _ => ⟨255, 255, 255, 255⟩, [], [], 0⟩ (by norm_num)

/-- Comparing squared lengths agrees with comparing the source's float
lengths `√lenSq`. -/
theorem lenSq_lt_iff_dist_lt {a b : ℚ} (ha : 0 ≤ a) :
    Real.sqrt a < Real.sqrt b ↔ (a : ℝ) < b := by
  constructor
  · intro h
    by_contra hle
    exact absurd (Real.sqrt_le_sqrt (by exact_mod_cast not_lt.mp hle))
      (not_le.mpr h)
  · intro h
    exact Real.sqrt_lt_sqrt (by exact_mod_cast ha) h

/-- The source's `reduce` picks an element of the candidate list. -/
theorem foldl_pickLonger_mem :
    ∀ (cs : List Segment) (c : Segment), cs.foldl pickLonger c ∈ c :: cs := by
  intro cs
  induction cs with
  | nil => exact fun c => List.mem_singleton.mpr rfl
  | cons b bs ih =>
    intro c
    rw [List.foldl_cons]
    rcases List.mem_cons.mp (ih (pickLonger c b)) with h | h
    · rw [h, pickLonger]
      split_ifs
      · exact List.mem_cons_of_mem c (List.mem_cons_self b bs)
      · exact List.mem_cons_self c (b :: bs)
    · exact List.mem_cons_of_mem c (List.mem_cons_of_mem b h)

/-- The source's `reduce` picks a run of maximal length. -/
theorem foldl_pickLonger_max :
    ∀ (cs : List Segment) (c : Segment) (s : Segment), s ∈ c :: cs →
      s.lenSq ≤ (cs.foldl pickLonger c).lenSq := by
  intro cs
  induction cs with
  | nil =>
    intro c s hs
    rcases List.mem_singleton.mp hs with rfl
    exact le_refl _
  | cons b bs ih =>
    intro c s hs
    rw [List.foldl_cons]
    have hco : c.lenSq ≤ (pickLonger c b).lenSq := by
      rw [pickLonger]
      split_ifs with h
      · exact le_of_lt h
      · exact le_refl _
    have hbo : b.lenSq ≤ (pickLonger c b).lenSq := by
      rw [pickLonger]
      split_ifs with h
      · exact le_refl _
      · exact not_lt.mp h
    have hhead : (pickLonger c b).lenSq
        ≤ (bs.foldl pickLonger (pickLonger c b)).lenSq :=
      ih (pickLonger c b) _ (List.mem_cons_self _ _)
    rcases List.mem_cons.mp hs with rfl | hs
    · exact le_trans hco hhead
    · rcases List.mem_cons.mp hs with rfl | hs
      · exact le_trans hbo hhead
      · exact ih (pickLonger c b) s (List.mem_cons_of_mem _ hs)

theorem atan2_le_pi (y x : ℝ) : atan2 y x ≤ Real.pi := by
  unfold atan2
  have h1 := Real.arctan_lt_pi_div_two (y / x)
  have h2 := Real.neg_pi_div_two_lt_arctan (y / x)
  have hpi := Real.pi_pos
  split_ifs with hx hx' hy hy' hy''
  · linarith
  · -- x < 0, 0 ≤ y: y/x ≤ 0, so arctan (y/x) ≤ 0
    have hdiv : y / x ≤ 0 := div_nonpos_iff.mpr (Or.inl ⟨hy, le_of_lt hx'⟩)
    have : Real.arctan (y / x) ≤ Real.arctan 0 :=
      Real.arctan_strictMono.monotone hdiv
    rw [Real.arctan_zero] at this
    linarith
  · linarith
  · linarith
  · linarith
  · linarith

theorem neg_pi_le_atan2 (y x : ℝ) : -Real.pi ≤ atan2 y x := by
  unfold atan2
  have h1 := Real.arctan_lt_pi_div_two (y / x)
  have h2 := Real.neg_pi_div_two_lt_arctan (y / x)
  have hpi := Real.pi_pos
  split_ifs with hx hx' hy hy' hy''
  · linarith
  · linarith
  · -- x < 0, y < 0: y/x ≥ 0, so arctan (y/x) ≥ 0
    have hdiv : 0 ≤ y / x :=
      le_of_lt (div_pos_of_neg_of_neg (not_le.mp hy) hx')
    have : Real.arctan 0 ≤ Real.arctan (y / x) :=
      Real.arctan_strictMono.monotone hdiv
    rw [Real.arctan_zero] at this
    linarith
  · linarith
  · linarith
  · linarith

/-- **C8.** `findBestLine` returns the longest contiguous run over all
`(line, offset)` candidates as the baseline, with the angle the two-argument
arctangent of its endpoint delta; when that raw angle falls outside
`[-π/2, π/2]`, the endpoints are swapped and the angle rotated by π, and
the returned angle always lies within `[-π/2, π/2]`. -/
theorem findBestLine_spec (pixelData : Raster) (W H : ℕ)
    (targetColor : Color) (lineYKX lineXKY : Line) (s e : ℚ × ℚ) :
    (candidatesOf pixelData W H targetColor lineYKX lineXKY = [] →
      findBestLine pixelData W H targetColor lineYKX lineXKY = none)
    ∧ (∀ c cs,
        candidatesOf pixelData W H targetColor lineYKX lineXKY = c :: cs →
        cs.foldl pickLonger c ∈ c :: cs
        ∧ (∀ sg, sg ∈ c :: cs →
            sg.lenSq ≤ (cs.foldl pickLonger c).lenSq)
        ∧ findBestLine pixelData W H targetColor lineYKX lineXKY
            = some (normalizeTextDirection (cs.foldl pickLonger c).start
                (cs.foldl pickLonger c).stop))
    ∧ (-(Real.pi / 2) ≤ (normalizeTextDirection s e).2.2
        ∧ (normalizeTextDirection s e).2.2 ≤ Real.pi / 2)
    ∧ (atan2 ((e.2 : ℝ) - (s.2 : ℝ)) ((e.1 : ℝ) - (s.1 : ℝ)) > Real.pi / 2 →
        normalizeTextDirection s e
          = (e, s, atan2 ((e.2 : ℝ) - (s.2 : ℝ)) ((e.1 : ℝ) - (s.1 : ℝ))
              - Real.pi))
    ∧ (atan2 ((e.2 : ℝ) - (s.2 : ℝ)) ((e.1 : ℝ) - (s.1 : ℝ))
          < -(Real.pi / 2) →
        normalizeTextDirection s e
          = (e, s, atan2 ((e.2 : ℝ) - (s.2 : ℝ)) ((e.1 : ℝ) - (s.1 : ℝ))
              + Real.pi))
    ∧ (-(Real.pi / 2) ≤ atan2 ((e.2 : ℝ) - (s.2 : ℝ))
          ((e.1 : ℝ) - (s.1 : ℝ)) →
        atan2 ((e.2 : ℝ) - (s.2 : ℝ)) ((e.1 : ℝ) - (s.1 : ℝ))
          ≤ Real.pi / 2 →
        normalizeTextDirection s e
          = (s, e, atan2 ((e.2 : ℝ) - (s.2 : ℝ)) ((e.1 : ℝ) - (s.1 : ℝ)))) := by
  have hup := atan2_le_pi ((e.2 : ℝ) - (s.2 : ℝ)) ((e.1 : ℝ) - (s.1 : ℝ))
  have hlow := neg_pi_le_atan2 ((e.2 : ℝ) - (s.2 : ℝ)) ((e.1 : ℝ) - (s.1 : ℝ))
  have hpi := Real.pi_pos
  refine ⟨?_, ?_, ?_, ?_, ?_, ?_⟩
  · intro hnil
    unfold findBestLine
    rw [hnil]
  · intro c cs hcons
    refine ⟨foldl_pickLonger_mem cs c, fun sg hsg =>
      foldl_pickLonger_max cs c sg hsg, ?_⟩
    unfold findBestLine
    rw [hcons]
  · unfold normalizeTextDirection
    dsimp only
    split_ifs with hgt hlt
    · constructor <;> linarith
    · constructor <;> linarith
    · exact ⟨not_lt.mp hlt, not_lt.mp hgt⟩
  · intro hgt
    unfold normalizeTextDirection
    dsimp only
    rw [if_pos hgt]
  · intro hlt
    unfold normalizeTextDirection
    dsimp only
    rw [if_neg (not_lt.mpr (le_trans (le_of_lt hlt) (by linarith))),
      if_pos hlt]
  · intro hge hle
    unfold normalizeTextDirection
    dsimp only
    rw [if_neg (not_lt.mpr hle), if_neg (not_lt.mpr hge)]

theorem stepCandidate_seed {seed p : ℕ × ℕ} {cur : Option ((ℕ × ℕ) × ℤ)}
    {n : Option (ℕ × ℕ)} (hc : cur = none ∨ ∃ d, cur = some (seed, d))
    (hn : n = none ∨ n = some seed) :
    stepCandidate p cur n = none
      ∨ ∃ d, stepCandidate p cur n = some (seed, d) := by
  rcases hn with rfl | rfl
  · exact hc
  · rcases hc with rfl | ⟨d, rfl⟩
    · exact Or.inr ⟨distSqZ p seed, rfl⟩
    · simp only [stepCandidate]
      split_ifs
      · exact Or.inr ⟨distSqZ p seed, rfl⟩
      · exact Or.inr ⟨d, rfl⟩

theorem stepCandidate_keeps {seed p : ℕ × ℕ} {cur : Option ((ℕ × ℕ) × ℤ)}
    {n : Option (ℕ × ℕ)} (hc : ∃ d, cur = some (seed, d))
    (hn : n = none ∨ n = some seed) :
    ∃ d, stepCandidate p cur n = some (seed, d) := by
  obtain ⟨d, rfl⟩ := hc
  rcases hn with rfl | rfl
  · exact ⟨d, rfl⟩
  · simp only [stepCandidate]
    split_ifs
    · exact ⟨distSqZ p seed, rfl⟩
    · exact ⟨d, rfl⟩

theorem stepCandidate_gains {seed p : ℕ × ℕ} {cur : Option ((ℕ × ℕ) × ℤ)}
    (hc : cur = none ∨ ∃ d, cur = some (seed, d)) :
    ∃ d, stepCandidate p cur (some seed) = some (seed, d) := by
  rcases hc with rfl | ⟨d, rfl⟩
  · exact ⟨distSqZ p seed, rfl⟩
  · simp only [stepCandidate]
    split_ifs
    · exact ⟨distSqZ p seed, rfl⟩
    · exact ⟨d, rfl⟩

theorem stepCandidate_none {p : ℕ × ℕ} {cur : Option ((ℕ × ℕ) × ℤ)}
    {n : Option (ℕ × ℕ)} (h : stepCandidate p cur n = none) :
    cur = none ∧ n = none := by
  rcases n with _ | q
  · exact ⟨h, rfl⟩
  · exfalso
    rcases cur with _ | ⟨c, dc⟩
    · exact Option.noConfusion h
    · simp only [stepCandidate] at h
      split_ifs at h <;> exact Option.noConfusion h

theorem foldl_step_seed {seed : ℕ × ℕ} (p : ℕ × ℕ) (g : ℤ × ℤ → Option (ℕ × ℕ))
    (hg : ∀ δ, g δ = none ∨ g δ = some seed) :
    ∀ (l : List (ℤ × ℤ)) (cur : Option ((ℕ × ℕ) × ℤ)),
      (cur = none ∨ ∃ d, cur = some (seed, d)) →
      l.foldl (fun c δ => stepCandidate p c (g δ)) cur = none
        ∨ ∃ d, l.foldl (fun c δ => stepCandidate p c (g δ)) cur
            = some (seed, d) := by
  intro l
  induction l with
  | nil => exact fun cur hc => hc
  | cons a l ih =>
    intro cur hc
    rw [List.foldl_cons]
    exact ih _ (stepCandidate_seed hc (hg a))

theorem foldl_step_keeps {seed : ℕ × ℕ} (p : ℕ × ℕ) (g : ℤ × ℤ → Option (ℕ × ℕ))
    (hg : ∀ δ, g δ = none ∨ g δ = some seed) :
    ∀ (l : List (ℤ × ℤ)) (cur : Option ((ℕ × ℕ) × ℤ)),
      (∃ d, cur = some (seed, d)) →
      ∃ d, l.foldl (fun c δ => stepCandidate p c (g δ)) cur
        = some (seed, d) := by
  intro l
  induction l with
  | nil => exact fun cur hc => hc
  | cons a l ih =>
    intro cur hc
    rw [List.foldl_cons]
    exact ih _ (stepCandidate_keeps hc (hg a))

theorem foldl_step_gains {seed : ℕ × ℕ} (p : ℕ × ℕ) (g : ℤ × ℤ → Option (ℕ × ℕ))
    (hg : ∀ δ, g δ = none ∨ g δ = some seed) :
    ∀ (l : List (ℤ × ℤ)) (cur : Option ((ℕ × ℕ) × ℤ)),
      (cur = none ∨ ∃ d, cur = some (seed, d)) →
      (∃ δ, δ ∈ l ∧ g δ = some seed) →
      ∃ d, l.foldl (fun c δ => stepCandidate p c (g δ)) cur
        = some (seed, d) := by
  intro l
  induction l with
  | nil =>
    rintro cur _ ⟨δ, hδ, -⟩
    exact absurd hδ (List.not_mem_nil δ)
  | cons a l ih =>
    rintro cur hc ⟨δ, hδ, hgδ⟩
    rw [List.foldl_cons]
    rcases List.mem_cons.mp hδ with rfl | hδ
    · exact foldl_step_keeps p g hg l _ (by rw [hgδ]; exact stepCandidate_gains hc)
    · exact ih _ (stepCandidate_seed hc (hg a)) ⟨δ, hδ, hgδ⟩

theorem foldl_step_none (p : ℕ × ℕ) (g : ℤ × ℤ → Option (ℕ × ℕ)) :
    ∀ (l : List (ℤ × ℤ)) (cur : Option ((ℕ × ℕ) × ℤ)),
      l.foldl (fun c δ => stepCandidate p c (g δ)) cur = none →
      cur = none ∧ ∀ δ, δ ∈ l → g δ = none := by
  intro l
  induction l with
  | nil =>
    intro cur h
    exact ⟨h, fun δ hδ => absurd hδ (List.not_mem_nil δ)⟩
  | cons a l ih =>
    intro cur h
    rw [List.foldl_cons] at h
    obtain ⟨hstep, hrest⟩ := ih _ h
    obtain ⟨hcur, ha⟩ := stepCandidate_none hstep
    refine ⟨hcur, fun δ hδ => ?_⟩
    rcases List.mem_cons.mp hδ with rfl | hδ
    · exact ha
    · exact hrest δ hδ

/-- Every texel of a pass over a single-seed-valued field is again the
sentinel or that seed's coordinate. -/
theorem jfaPass_seedOpt {seed : ℕ × ℕ} {f : ℕ × ℕ → Option (ℕ × ℕ)}
    (N s : ℕ) (hf : ∀ q, f q = none ∨ f q = some seed) :
    ∀ p, jfaPass f N s p = none ∨ jfaPass f N s p = some seed := by
  intro p
  unfold jfaPass jfaTexel
  dsimp only
  have hinit : (match f p with
      | none => (none : Option ((ℕ × ℕ) × ℤ))
      | some q => some (q, distSqZ p q)) = none
      ∨ ∃ d, (match f p with
      | none => (none : Option ((ℕ × ℕ) × ℤ))
      | some q => some (q, distSqZ p q)) = some (seed, d) := by
    rcases hf p with h | h <;> rw [h]
    · exact Or.inl rfl
    · exact Or.inr ⟨distSqZ p seed, rfl⟩
  have hres := foldl_step_seed p
    (fun δ => sampleJFA f N ((p.1 : ℤ) + δ.1) ((p.2 : ℤ) + δ.2))
    (fun δ => hf _) (jfaOffsets s) _ hinit
  rcases hres with h | ⟨d, h⟩ <;> rw [h]
  · exact Or.inl rfl
  · exact Or.inr rfl

/-- A texel already holding the seed keeps it across a pass. -/
theorem jfaPass_keeps {seed : ℕ × ℕ} {f : ℕ × ℕ → Option (ℕ × ℕ)}
    (N s : ℕ) (hf : ∀ q, f q = none ∨ f q = some seed) (p : ℕ × ℕ)
    (hp : f p = some seed) : jfaPass f N s p = some seed := by
  unfold jfaPass jfaTexel
  dsimp only
  rw [hp]
  obtain ⟨d, h⟩ := foldl_step_keeps p
    (fun δ => sampleJFA f N ((p.1 : ℤ) + δ.1) ((p.2 : ℤ) + δ.2))
    (fun δ => hf _) (jfaOffsets s) _ ⟨distSqZ p seed, rfl⟩
  rw [h]

/-- A texel one of whose eight samples holds the seed acquires it. -/
theorem jfaPass_gains {seed : ℕ × ℕ} {f : ℕ × ℕ → Option (ℕ × ℕ)}
    (N s : ℕ) (hf : ∀ q, f q = none ∨ f q = some seed) (p : ℕ × ℕ)
    (δ : ℤ × ℤ) (hδ : δ ∈ jfaOffsets s)
    (hsample : f (clampIdx N ((p.1 : ℤ) + δ.1),
      clampIdx N ((p.2 : ℤ) + δ.2)) = some seed) :
    jfaPass f N s p = some seed := by
  unfold jfaPass jfaTexel
  dsimp only
  have hinit : (match f p with
      | none => (none : Option ((ℕ × ℕ) × ℤ))
      | some q => some (q, distSqZ p q)) = none
      ∨ ∃ d, (match f p with
      | none => (none : Option ((ℕ × ℕ) × ℤ))
      | some q => some (q, distSqZ p q)) = some (seed, d) := by
    rcases hf p with h | h <;> rw [h]
    · exact Or.inl rfl
    · exact Or.inr ⟨distSqZ p seed, rfl⟩
  obtain ⟨d, h⟩ := foldl_step_gains p
    (fun δ => sampleJFA f N ((p.1 : ℤ) + δ.1) ((p.2 : ℤ) + δ.2))
    (fun δ => hf _) (jfaOffsets s) _ hinit ⟨δ, hδ, hsample⟩
  rw [h]

theorem foldl_step_all_none (p : ℕ × ℕ) (g : ℤ × ℤ → Option (ℕ × ℕ)) :
    ∀ (l : List (ℤ × ℤ)) (cur : Option ((ℕ × ℕ) × ℤ)), cur = none →
      (∀ δ, δ ∈ l → g δ = none) →
      l.foldl (fun c δ => stepCandidate p c (g δ)) cur = none := by
  intro l
  induction l with
  | nil => exact fun cur hc _ => hc
  | cons a l ih =>
    intro cur hc hall
    rw [List.foldl_cons]
    apply ih
    · rw [hc, hall a (List.mem_cons_self a l)]
      rfl
    · exact fun δ hδ => hall δ (List.mem_cons_of_mem a hδ)

theorem jfaPass_of_all_none {f : ℕ × ℕ → Option (ℕ × ℕ)} {N s : ℕ}
    {p : ℕ × ℕ} (hinit : f p = none)
    (hall : ∀ δ, δ ∈ jfaOffsets s →
      sampleJFA f N ((p.1 : ℤ) + δ.1) ((p.2 : ℤ) + δ.2) = none) :
    jfaPass f N s p = none := by
  unfold jfaPass jfaTexel
  dsimp only
  rw [hinit]
  rw [foldl_step_all_none p
    (fun δ => sampleJFA f N ((p.1 : ℤ) + δ.1) ((p.2 : ℤ) + δ.2))
    (jfaOffsets s) none rfl hall]

theorem jfaOffsets_mem_bound {s : ℕ} {δ : ℤ × ℤ} (h : δ ∈ jfaOffsets s) :
    |δ.1| ≤ (s : ℤ) ∧ |δ.2| ≤ (s : ℤ) := by
  have hs : (0 : ℤ) ≤ (s : ℤ) := Int.natCast_nonneg s
  simp only [jfaOffsets, List.mem_cons, List.not_mem_nil, or_false] at h
  rcases h with rfl | rfl | rfl | rfl | rfl | rfl | rfl | rfl <;>
    constructor <;>
    simp only [abs_neg, abs_zero] <;>
    first
      | exact hs
      | exact le_of_eq (abs_of_nonneg hs)

theorem clampIdx_lt {N : ℕ} (hN : 0 < N) (v : ℤ) : clampIdx N v < N := by
  unfold clampIdx
  omega

theorem clampIdx_natCast {N a : ℕ} (ha : a < N) : clampIdx N (a : ℤ) = a := by
  unfold clampIdx
  omega

theorem clampIdx_close {N : ℕ} (a : ℕ) (ha : a < N) (v : ℤ) :
    |(clampIdx N v : ℤ) - a| ≤ |v - a| := by
  have hva : v - a ≤ |v - a| := le_abs_self _
  have hav : (a : ℤ) - v ≤ |v - a| := by
    rw [abs_sub_comm]
    exact le_abs_self _
  have h1 : ((clampIdx N v : ℕ) : ℤ) = max 0 (min v ((N : ℤ) - 1)) := by
    unfold clampIdx
    exact Int.toNat_of_nonneg (le_max_left 0 _)
  rw [h1, abs_sub_le_iff]
  obtain ⟨A, hA⟩ : ∃ A, |v - (a : ℤ)| = A := ⟨_, rfl⟩
  rw [hA] at hva hav ⊢
  constructor <;> omega

/-- One jump-flood pass can move the boundary of the non-sentinel set by at
most the step size, in Chebyshev distance from the seed. -/
theorem jfaPass_bound {seed : ℕ × ℕ} {f : ℕ × ℕ → Option (ℕ × ℕ)} {N : ℕ}
    (s : ℕ) (R : ℤ)
    (hb : ∀ q : ℕ × ℕ, q.1 < N → q.2 < N → f q ≠ none →
      |(q.1 : ℤ) - seed.1| ≤ R ∧ |(q.2 : ℤ) - seed.2| ≤ R)
    (p : ℕ × ℕ) (hp1 : p.1 < N) (hp2 : p.2 < N)
    (hne : jfaPass f N s p ≠ none) :
    |(p.1 : ℤ) - seed.1| ≤ R + s ∧ |(p.2 : ℤ) - seed.2| ≤ R + s := by
  have hs0 : (0 : ℤ) ≤ (s : ℤ) := Int.natCast_nonneg s
  by_cases hinit : f p = none
  · by_cases hall : ∀ δ, δ ∈ jfaOffsets s →
        sampleJFA f N ((p.1 : ℤ) + δ.1) ((p.2 : ℤ) + δ.2) = none
    · exact absurd (jfaPass_of_all_none hinit hall) hne
    · push_neg at hall
      obtain ⟨δ, hδmem, hδne⟩ := hall
      have hN : 0 < N := lt_of_le_of_lt (Nat.zero_le p.1) hp1
      have hq := hb (clampIdx N ((p.1 : ℤ) + δ.1), clampIdx N ((p.2 : ℤ) + δ.2))
        (clampIdx_lt hN _) (clampIdx_lt hN _) hδne
      have hδb := jfaOffsets_mem_bound hδmem
      have hc1 : |(clampIdx N ((p.1 : ℤ) + δ.1) : ℤ) - p.1| ≤ |δ.1| := by
        have h := clampIdx_close p.1 hp1 ((p.1 : ℤ) + δ.1)
        rw [show (p.1 : ℤ) + δ.1 - p.1 = δ.1 from by ring] at h
        exact h
      have hc2 : |(clampIdx N ((p.2 : ℤ) + δ.2) : ℤ) - p.2| ≤ |δ.2| := by
        have h := clampIdx_close p.2 hp2 ((p.2 : ℤ) + δ.2)
        rw [show (p.2 : ℤ) + δ.2 - p.2 = δ.2 from by ring] at h
        exact h
      constructor
      · calc |(p.1 : ℤ) - seed.1|
            ≤ |(p.1 : ℤ) - clampIdx N ((p.1 : ℤ) + δ.1)|
              + |(clampIdx N ((p.1 : ℤ) + δ.1) : ℤ) - seed.1| := abs_sub_le _ _ _
          _ ≤ |δ.1| + R := add_le_add (by rw [abs_sub_comm]; exact hc1) hq.1
          _ ≤ R + s := by linarith [hδb.1]
      · calc |(p.2 : ℤ) - seed.2|
            ≤ |(p.2 : ℤ) - clampIdx N ((p.2 : ℤ) + δ.2)|
              + |(clampIdx N ((p.2 : ℤ) + δ.2) : ℤ) - seed.2| := abs_sub_le _ _ _
          _ ≤ |δ.2| + R := add_le_add (by rw [abs_sub_comm]; exact hc2) hq.2
          _ ≤ R + s := by linarith [hδb.2]
  · have h := hb p hp1 hp2 hinit
    exact ⟨le_trans h.1 (by linarith), le_trans h.2 (by linarith)⟩

/-- After the whole pass sequence, every non-sentinel texel lies within the
sum of the step sizes of the initial non-sentinel set, in Chebyshev
distance. -/
theorem runJFA_bound {seed : ℕ × ℕ} {N : ℕ} :
    ∀ (steps : List ℕ) (f : ℕ × ℕ → Option (ℕ × ℕ)) (R : ℤ),
      (∀ q : ℕ × ℕ, q.1 < N → q.2 < N → f q ≠ none →
        |(q.1 : ℤ) - seed.1| ≤ R ∧ |(q.2 : ℤ) - seed.2| ≤ R) →
      ∀ p : ℕ × ℕ, p.1 < N → p.2 < N → runJFA f N steps p ≠ none →
        |(p.1 : ℤ) - seed.1| ≤ R + (steps.sum : ℤ) ∧
        |(p.2 : ℤ) - seed.2| ≤ R + (steps.sum : ℤ) := by
  intro steps
  induction steps with
  | nil =>
    intro f R hb p hp1 hp2 hne
    have h := hb p hp1 hp2 hne
    simpa using h
  | cons s rest ih =>
    intro f R hb p hp1 hp2 hne
    have hb' : ∀ q : ℕ × ℕ, q.1 < N → q.2 < N → jfaPass f N s q ≠ none →
        |(q.1 : ℤ) - seed.1| ≤ R + s ∧ |(q.2 : ℤ) - seed.2| ≤ R + s :=
      fun q hq1 hq2 hqne => jfaPass_bound s R hb q hq1 hq2 hqne
    have h := ih (jfaPass f N s) (R + s) hb' p hp1 hp2 hne
    refine ⟨?_, ?_⟩ <;>
    · rw [List.sum_cons, Nat.cast_add]
      linarith [h.1, h.2]

/-- C2 counterexample: the fixed step list [32,16,8,4,2,1] sums to 63, so on a
128×128 field the far-corner texel never hears from a seed at the origin: the
claim fails for N = 128 even though the field holds exactly one seed. -/
theorem runJFA_single_seed_fails_at_128 :
    runJFA (seedField (0, 0)) 128 jfaSteps (127, 127) ≠ some (0, 0) := by
  intro hcontra
  have hb : ∀ q : ℕ × ℕ, q.1 < 128 → q.2 < 128 → seedField (0, 0) q ≠ none →
      |(q.1 : ℤ) - (((0, 0) : ℕ × ℕ).1 : ℤ)| ≤ 0 ∧
      |(q.2 : ℤ) - (((0, 0) : ℕ × ℕ).2 : ℤ)| ≤ 0 := by
    intro q _ _ hne
    unfold seedField at hne
    by_cases h : q = (0, 0)
    · subst h
      norm_num
    · rw [if_neg h] at hne
      exact absurd rfl hne
  have hB := runJFA_bound jfaSteps (seedField (0, 0)) 0 hb (127, 127)
    (by norm_num) (by norm_num) (by rw [hcontra]; exact Option.noConfusion)
  have hsum : jfaSteps.sum = 63 := by decide
  rcases hB with ⟨h1, -⟩
  dsimp only at h1
  rw [hsum, Int.abs_eq_natAbs] at h1
  omega

theorem stepChoose (N s : ℕ) (hs1 : 1 ≤ s) (a b : ℕ) (ha : a < N) (hb : b < N)
    (hab : |(b : ℤ) - a| ≤ 2 * (s : ℤ) - 1) :
    ∃ (a' : ℕ) (δ : ℤ), a' < N ∧ (δ = -(s : ℤ) ∨ δ = 0 ∨ δ = (s : ℤ)) ∧
      clampIdx N ((a' : ℤ) + δ) = a ∧ |(b : ℤ) - a'| ≤ (s : ℤ) - 1 ∧
      (δ = 0 → a' = a) := by
  by_cases h1 : (a : ℤ) + s ≤ b
  · refine ⟨a + s, -(s : ℤ), by omega, Or.inl rfl, ?_, ?_, by intro h; omega⟩
    · rw [show ((a + s : ℕ) : ℤ) + -(s : ℤ) = (a : ℤ) from by push_cast; ring]
      exact clampIdx_natCast ha
    · rw [abs_le] at hab ⊢
      push_cast
      omega
  · by_cases h2 : (b : ℤ) + s ≤ a
    · have hsa : s ≤ a := by omega
      refine ⟨a - s, (s : ℤ), by omega, Or.inr (Or.inr rfl), ?_, ?_,
        by intro h; omega⟩
      · rw [Nat.cast_sub hsa, show (a : ℤ) - s + s = (a : ℤ) from by ring]
        exact clampIdx_natCast ha
      · rw [abs_le] at hab ⊢
        rw [Nat.cast_sub hsa]
        omega
    · refine ⟨a, 0, ha, Or.inr (Or.inl rfl), ?_, ?_, fun _ => rfl⟩
      · rw [add_zero]
        exact clampIdx_natCast ha
      · rw [abs_le] at hab ⊢
        omega

/-- Completeness of the jump flood for a single seed: after the descending
power-of-two step list `powersList k`, every texel within Chebyshev distance
2^k − 1 of an in-grid source texel holds the seed. -/
theorem runJFA_reaches (N : ℕ) (seed : ℕ × ℕ) :
    ∀ (k : ℕ) (f : ℕ × ℕ → Option (ℕ × ℕ)),
      (∀ r, f r = none ∨ f r = some seed) →
      ∀ (p q : ℕ × ℕ), f q = some seed →
        q.1 < N → q.2 < N → p.1 < N → p.2 < N →
        |(p.1 : ℤ) - q.1| ≤ 2 ^ k - 1 → |(p.2 : ℤ) - q.2| ≤ 2 ^ k - 1 →
        runJFA f N (powersList k) p = some seed := by
  intro k
  induction k with
  | zero =>
    intro f hf p q hq hq1 hq2 hp1 hp2 hdx hdy
    rw [pow_zero] at hdx hdy
    have h1 : p.1 = q.1 := by
      obtain ⟨ha, hb⟩ := abs_le.mp hdx
      omega
    have h2 : p.2 = q.2 := by
      obtain ⟨ha, hb⟩ := abs_le.mp hdy
      omega
    rw [Prod.ext h1 h2]
    exact hq
  | succ k ih =>
    intro f hf p q hq hq1 hq2 hp1 hp2 hdx hdy
    have hs1 : 1 ≤ 2 ^ k := Nat.one_le_two_pow
    rw [show ((2 : ℤ)) ^ (k + 1) = 2 * ((2 ^ k : ℕ) : ℤ) from by push_cast; ring]
      at hdx hdy
    obtain ⟨q1', δx, hq1'N, hδx, hclampx, hbx, hδx0⟩ :=
      stepChoose N (2 ^ k) hs1 q.1 p.1 hq1 hp1 hdx
    obtain ⟨q2', δy, hq2'N, hδy, hclampy, hby, hδy0⟩ :=
      stepChoose N (2 ^ k) hs1 q.2 p.2 hq2 hp2 hdy
    have hf' := jfaPass_seedOpt N (2 ^ k) hf
    have hq' : jfaPass f N (2 ^ k) (q1', q2') = some seed := by
      by_cases hcenter : δx = 0 ∧ δy = 0
      · rw [hδx0 hcenter.1, hδy0 hcenter.2]
        exact jfaPass_keeps N (2 ^ k) hf (q.1, q.2) hq
      · refine jfaPass_gains N (2 ^ k) hf (q1', q2') (δx, δy) ?_ ?_
        · rcases hδx with rfl | rfl | rfl
          · rcases hδy with rfl | rfl | rfl
            · simp [jfaOffsets]
            · simp [jfaOffsets]
            · simp [jfaOffsets]
          · rcases hδy with rfl | rfl | rfl
            · simp [jfaOffsets]
            · exact absurd ⟨rfl, rfl⟩ hcenter
            · simp [jfaOffsets]
          · rcases hδy with rfl | rfl | rfl
            · simp [jfaOffsets]
            · simp [jfaOffsets]
            · simp [jfaOffsets]
        · show f (clampIdx N ((q1' : ℤ) + δx), clampIdx N ((q2' : ℤ) + δy))
            = some seed
          rw [hclampx, hclampy]
          exact hq
    show runJFA (jfaPass f N (2 ^ k)) N (powersList k) p = some seed
    refine ih (jfaPass f N (2 ^ k)) hf' p (q1', q2') hq' hq1'N hq2'N hp1 hp2
      ?_ ?_
    · push_cast at hbx
      exact hbx
    · push_cast at hby
      exact hby

/-- C2: on an N×N field holding exactly one seed texel, the jump-flood stage
over the descending step list [32,16,8,4,2,1] assigns that seed's coordinate
to every texel — provided N ≤ 64 (the steps sum to 63, which covers any
Chebyshev distance inside such a grid; for larger N the claim fails, see the
counterexample at N = 128). -/
theorem runJFA_single_seed_exact (N : ℕ) (seed p : ℕ × ℕ) (hN : N ≤ 64)
    (hs1 : seed.1 < N) (hs2 : seed.2 < N) (hp1 : p.1 < N) (hp2 : p.2 < N) :
    runJFA (seedField seed) N jfaSteps p = some seed := by
  have hsteps : jfaSteps = powersList 6 := by decide
  rw [hsteps]
  have hf : ∀ r, seedField seed r = none ∨ seedField seed r = some seed := by
    intro r
    unfold seedField
    split_ifs with h
    · exact Or.inr rfl
    · exact Or.inl rfl
  have hseed : seedField seed seed = some seed := by
    unfold seedField
    rw [if_pos rfl]
  refine runJFA_reaches N seed 6 (seedField seed) hf p seed hseed hs1 hs2
    hp1 hp2 ?_ ?_ <;>
  · rw [abs_le, show ((2 : ℤ)) ^ 6 - 1 = 63 from by norm_num]
    constructor <;> omega

theorem runJFA_single_seed_exact_witness :
    runJFA (seedField (0, 0)) 2 jfaSteps (1, 1) = some (0, 0) :=
  runJFA_single_seed_exact 2 (0, 0) (1, 1) (by norm_num) (by decide)
    (by decide) (by decide) (by decide)
